import Mathlib

/-!
Shallow embedding of the CPU histogram orchestration layer
(aten/src/ATen/native/Histogram.cpp): input validation, output preparation,
outer-bin-edge resolution (both the histogramdd policy and the legacy histc
policy), edge materialization, and the entry points.  External collaborators
(aminmax / _aminmax reductions, linspace, resize_output, the accumulation
kernels) are not part of the source file and are modelled from the spec, as
noted on each such definition.

Scalars are modelled as IEEE-style extended rationals: a finite rational,
plus infinities and a NaN, with comparisons following IEEE semantics (all
comparisons with NaN are false).  Machine rounding is not modelled; all
claims under study concern control flow, shapes and exact edge policy.
-/

/-- IEEE-style scalar value: finite rational, +inf, -inf, or NaN. -/
inductive FP where
  | fin (q : ℚ)
  | inf
  | ninf
  | nan
deriving DecidableEq, Repr

namespace FP

/-- std::isfinite. -/
def isfinite : FP → Bool
  | fin _ => true
  | _ => false

/-- IEEE equality (==): NaN compares unequal to everything, including itself. -/
def feq : FP → FP → Bool
  | fin a, fin b => decide (a = b)
  | inf, inf => true
  | ninf, ninf => true
  | _, _ => false

/-- IEEE less-or-equal (<=): false whenever either side is NaN. -/
def fle : FP → FP → Bool
  | nan, _ => false
  | _, nan => false
  | ninf, _ => true
  | fin _, inf => true
  | fin a, fin b => decide (a ≤ b)
  | fin _, ninf => false
  | inf, inf => true
  | inf, _ => false

/-- IEEE strict less-than (<). -/
def flt (a b : FP) : Bool := fle a b && !(feq a b)

/-- Add a rational constant (used for the +-0.5 and +-1 expansions). -/
def addQ : FP → ℚ → FP
  | fin a, c => fin (a + c)
  | inf, _ => inf
  | ninf, _ => ninf
  | nan, _ => nan

/-- IEEE addition. -/
def fadd : FP → FP → FP
  | nan, _ => nan
  | _, nan => nan
  | inf, ninf => nan
  | ninf, inf => nan
  | inf, _ => inf
  | _, inf => inf
  | ninf, _ => ninf
  | _, ninf => ninf
  | fin a, fin b => fin (a + b)

/-- IEEE negation. -/
def fneg : FP → FP
  | fin a => fin (-a)
  | inf => ninf
  | ninf => inf
  | nan => nan

/-- IEEE subtraction. -/
def fsub (a b : FP) : FP := fadd a (fneg b)

/-- IEEE multiplication (inf times zero is NaN). -/
def fmul : FP → FP → FP
  | nan, _ => nan
  | _, nan => nan
  | fin a, fin b => fin (a * b)
  | inf, fin b => if 0 < b then inf else if b < 0 then ninf else nan
  | fin a, inf => if 0 < a then inf else if a < 0 then ninf else nan
  | ninf, fin b => if 0 < b then ninf else if b < 0 then inf else nan
  | fin a, ninf => if 0 < a then ninf else if a < 0 then inf else nan
  | inf, inf => inf
  | inf, ninf => ninf
  | ninf, inf => ninf
  | ninf, ninf => inf

/-- IEEE division (finite/0 is signed infinity, 0/0 and inf/inf are NaN). -/
def fdiv : FP → FP → FP
  | nan, _ => nan
  | _, nan => nan
  | fin a, fin b =>
      if b = 0 then (if a = 0 then nan else if 0 < a then inf else ninf)
      else fin (a / b)
  | fin _, inf => fin 0
  | fin _, ninf => fin 0
  | inf, fin b => if 0 ≤ b then inf else ninf
  | ninf, fin b => if 0 ≤ b then ninf else inf
  | _, _ => nan

/-- Minimum, propagating NaN (as the aminmax reduction does). -/
def fmin : FP → FP → FP
  | nan, _ => nan
  | _, nan => nan
  | a, b => if fle a b then a else b

/-- Maximum, propagating NaN (as the aminmax reduction does). -/
def fmax : FP → FP → FP
  | nan, _ => nan
  | _, nan => nan
  | a, b => if fle a b then b else a

end FP

/-- Floating element types handled by AT_DISPATCH_FLOATING_TYPES. -/
inductive DType where
  | float
  | double
deriving DecidableEq, Repr

/-- A tensor: element type, shape, and flat row-major data. -/
structure Tensor where
  dtype : DType
  shape : List ℕ
  data : List FP
deriving DecidableEq, Repr

namespace Tensor

def numel (t : Tensor) : ℕ := t.shape.prod

def dim (t : Tensor) : ℕ := t.shape.length

/-- size(-1): the innermost dimension (only read after dim >= 2 is checked). -/
def sizeLast (t : Tensor) : ℕ := t.shape.getLastD 0

/-- Well-formedness: flat data matches the shape. -/
def wf (t : Tensor) : Prop := t.data.length = t.numel

end Tensor

/-- Errors: TORCH_CHECK raises an invalid-argument error with a message;
TORCH_INTERNAL_ASSERT raises an internal assertion failure. -/
inductive Err where
  | invalidArgument (msg : String)
  | internalAssert
deriving DecidableEq, Repr

/-- Modelled from the spec: at::native::resize_output (the external buffer
allocator/resizer), which (re)allocates a buffer to a given shape and element
type, preserving no prior contents; the fresh contents are modelled as zeros
(they are always fully overwritten before being read). -/
def resize_output (t : Tensor) (shape : List ℕ) : Tensor :=
  ⟨t.dtype, shape, List.replicate shape.prod (FP.fin 0)⟩

/-- Modelled from the spec: Tensor::copy_ (external), copying the source's
values into the destination buffer; at every call site in this file the
destination has just been resized to the source's numel and dtypes have been
checked equal, so the copy is an exact value transfer. -/
def tensor_copy (dst src : Tensor) : Tensor :=
  ⟨dst.dtype, dst.shape, src.data⟩

/-- at::empty(0, options): a fresh empty 1-D tensor of the given dtype. -/
def empty0 (dt : DType) : Tensor := ⟨dt, [0], []⟩

/- ## histogramdd_check_inputs (Histogram.cpp lines 54-102) -/

/-- The per-dimension loop of histogramdd_check_inputs: for each bins tensor,
check dtype equality with the input, then that it is 1-dimensional, then that
it has at least 1 element. -/
def checkBinsLoop (input_dtype : DType) : List Tensor → Except Err Unit
  | [] => .ok ()
  | b :: rest =>
    if b.dtype ≠ input_dtype then
      .error (.invalidArgument "input tensor and bins tensors should have the same dtype")
    else if b.dim ≠ 1 then
      .error (.invalidArgument "bins tensor should have one dimension")
    else if ¬ (0 < b.numel) then
      .error (.invalidArgument "bins tensor should have at least 1 element")
    else checkBinsLoop input_dtype rest

/-- histogramdd_check_inputs: validates the sample tensor, the list of bins
tensors, and the optional weight tensor.  Pure (no side effects). -/
def histogramdd_check_inputs (input : Tensor) (bins : List Tensor)
    (weight : Option Tensor) : Except Err Unit :=
  if input.dim < 2 then
    .error (.invalidArgument "input tensor should have at least 2 dimensions")
  else
    let N := input.sizeLast
    if bins.length ≠ N then
      .error (.invalidArgument "expected N sequences of bin edges")
    else match checkBinsLoop input.dtype bins with
    | .error e => .error e
    | .ok () =>
      match weight with
      | none => .ok ()
      | some w =>
        if w.dtype ≠ input.dtype then
          .error (.invalidArgument "input tensor and weight tensor should have the same dtype")
        else
          let weight_sizes := if w.shape = [] then [1] else w.shape
          if input.shape.dropLast ≠ weight_sizes then
            .error (.invalidArgument "weight tensor shape should match input shape excluding innermost dimension")
          else .ok ()

/- ## histogramdd_prepare_out (Histogram.cpp lines 106-135) -/

/-- The message of the non-positive bin count check. -/
def binsPosMsg : String := "bins must be > 0"

/-- The per-dimension loop of histogramdd_prepare_out: check the bin_edges
tensor's dtype against the input's, check the bin count is positive, then
resize that bin_edges tensor to bin count + 1.  On failure, tensors already
processed keep their resized state and the rest are returned unchanged. -/
def prepLoop (input_dtype : DType) : List (ℤ × Tensor) → Option Err × List Tensor
  | [] => (none, [])
  | (k, t) :: rest =>
    if t.dtype ≠ input_dtype then
      (some (.invalidArgument "input tensor and bin_edges tensor should have the same dtype"),
        t :: rest.map Prod.snd)
    else if ¬ (0 < k) then
      (some (.invalidArgument binsPosMsg), t :: rest.map Prod.snd)
    else
      let t' := resize_output t [k.toNat + 1]
      let r := prepLoop input_dtype rest
      (r.1, t' :: r.2)

/-- histogramdd_prepare_out (bin_ct overload): checks hist and bin_edges
dtypes and positive bin counts, then resizes bin_edges (inside the loop) and
finally hist.  Returns the possibly-partially-mutated output buffers. -/
def histogramdd_prepare_out_ct (input : Tensor) (bin_ct : List ℤ)
    (hist : Tensor) (bin_edges : List Tensor) : Option Err × Tensor × List Tensor :=
  let N := input.sizeLast
  if bin_ct.length ≠ N ∨ bin_edges.length ≠ N then
    (some .internalAssert, hist, bin_edges)
  else if hist.dtype ≠ input.dtype then
    (some (.invalidArgument "input tensor and hist tensor should have the same dtype"),
      hist, bin_edges)
  else
    match prepLoop input.dtype (bin_ct.zip bin_edges) with
    | (some e, ts) => (some e, hist, ts)
    | (none, ts) => (none, resize_output hist (bin_ct.map Int.toNat), ts)

/-- histogramdd_prepare_out (TensorList overload): derives each bin count as
the bins tensor's numel - 1. -/
def histogramdd_prepare_out_tl (input : Tensor) (bins : List Tensor)
    (hist : Tensor) (bin_edges : List Tensor) : Option Err × Tensor × List Tensor :=
  histogramdd_prepare_out_ct input (bins.map (fun t => (t.numel : ℤ) - 1)) hist bin_edges

/- ## select_outer_bin_edges (Histogram.cpp lines 156-200) -/

/-- Read coordinate j of row m of a tensor reshaped to (M, N). -/
def coordAt (t : Tensor) (N m j : ℕ) : FP := t.data.getD (m * N + j) FP.nan

/-- Modelled from the spec: the external column-wise min/max reduction
(at::aminmax with dim=0) over a (M, N)-shaped tensor, M >= 1.  Returns the
per-column minimum and maximum over the M rows. -/
def aminmax_dim0 (t : Tensor) (M N : ℕ) : List FP × List FP :=
  ((List.range N).map (fun j =>
      (List.range (M - 1)).foldl (fun acc m => FP.fmin acc (coordAt t N (m + 1) j))
        (coordAt t N 0 j)),
   (List.range N).map (fun j =>
      (List.range (M - 1)).foldl (fun acc m => FP.fmax acc (coordAt t N (m + 1) j))
        (coordAt t N 0 j)))

/-- Lines 162-179 of select_outer_bin_edges: produce the raw per-dimension
leftmost/rightmost edges.  If a range is given it must have exactly 2N
elements and is sliced; otherwise, for a non-empty input the column-wise
min/max is used; otherwise the defaults (0, 1) remain. -/
def souterRaw (input : Tensor) (range : Option (List FP)) :
    Except Err (List FP × List FP) :=
  let N := input.sizeLast
  match range with
  | some r =>
    if r.length ≠ 2 * N then
      .error (.invalidArgument "range should have 2N elements")
    else
      .ok ((List.range N).map (fun d => r.getD (2 * d) FP.nan),
           (List.range N).map (fun d => r.getD (2 * d + 1) FP.nan))
  | none =>
    if 0 < input.numel then
      .ok (aminmax_dim0 input (input.shape.getD 0 0) N)
    else
      .ok (List.replicate N (FP.fin 0), List.replicate N (FP.fin 1))

/-- The empty-range expansion of lines 193-196: a pair with equal endpoints
is widened by 0.5 on each side; any other pair is left unchanged. -/
def expandPair (p : FP × FP) : FP × FP :=
  if FP.feq p.1 p.2 then (p.1.addQ (-(1/2)), p.2.addQ (1/2)) else p

/-- Lines 181-197 of select_outer_bin_edges: per dimension, check both edges
are finite, check left <= right, and expand an empty range by 0.5 on both
sides. -/
def souterValidate : List (FP × FP) → Except Err (List (FP × FP))
  | [] => .ok []
  | (l, r) :: rest =>
    if ¬ (l.isfinite && r.isfinite) then
      .error (.invalidArgument "range is not finite")
    else if ¬ (FP.fle l r) then
      .error (.invalidArgument "min should not exceed max")
    else
      match souterValidate rest with
      | .error e => .error e
      | .ok ps => .ok (expandPair (l, r) :: ps)

/-- select_outer_bin_edges: raw resolution followed by validation/expansion.
Returns the per-dimension (leftmost, rightmost) outer edge pairs. -/
def select_outer_bin_edges (input : Tensor) (range : Option (List FP)) :
    Except Err (List (FP × FP)) :=
  match souterRaw input range with
  | .error e => .error e
  | .ok (ls, rs) => souterValidate (ls.zip rs)

/- ## histc_select_outer_bin_edges (Histogram.cpp lines 204-227) -/

/-- Modelled from the spec: the external global min/max reduction
(at::_aminmax over the whole tensor); errors on an empty tensor. -/
def aminmax_global (t : Tensor) : Except Err (FP × FP) :=
  match t.data with
  | [] => .error (.invalidArgument "aminmax requires a non-empty tensor")
  | x :: xs => .ok (xs.foldl FP.fmin x, xs.foldl FP.fmax x)

/-- Lines 220-226 of histc_select_outer_bin_edges: reject non-finite bounds
and min >= max; otherwise return the pair unchanged. -/
def histcCheck (p : FP × FP) : Except Err (FP × FP) :=
  if ¬ (p.1.isfinite && p.2.isfinite) then
    .error (.invalidArgument "histc range is not finite")
  else if ¬ (FP.flt p.1 p.2) then
    .error (.invalidArgument "max must be larger than min")
  else .ok p

/-- Lines 215-226 of histc_select_outer_bin_edges: expand a still-equal pair
by 1 on each side, then run the final checks. -/
def histcValidate (p : FP × FP) : Except Err (FP × FP) :=
  histcCheck (if FP.feq p.1 p.2 then (p.1.addQ (-1), p.2.addQ 1) else p)

/-- histc_select_outer_bin_edges: caller-supplied min/max; if equal, both are
recomputed from the data's global min/max; if still equal, expand by 1 on
each side; then reject non-finite bounds and min >= max. -/
def histc_select_outer_bin_edges (input : Tensor) (fmin fmax : FP) :
    Except Err (FP × FP) :=
  match (if FP.feq fmin fmax then aminmax_global input else .ok (fmin, fmax) :
      Except Err (FP × FP)) with
  | .error e => .error e
  | .ok p => histcValidate p

/- ## linspace (external collaborator) -/

/-- The evenly spaced rational values a, a + (b-a)/(s-1), ..., b. -/
def linspaceVals (a b : ℚ) (steps : ℕ) : List ℚ :=
  if steps = 1 then [a]
  else (List.range steps).map (fun i => a + i * (b - a) / (steps - 1))

/-- Modelled from the spec: linspace_cpu_out, the external evenly-spaced
sequence generator producing `steps` values between two bounds inclusive of
both ends, resizing the output buffer to hold them; errors when the step
count is negative.  Non-finite bounds (never reached from this file's call
sites, which validate finiteness first) produce NaN fill. -/
def linspace_cpu_out (a b : FP) (steps : ℤ) (out : Tensor) : Except Err Tensor :=
  if steps < 0 then
    .error (.invalidArgument "number of steps must be non-negative")
  else
    match a, b with
    | FP.fin qa, FP.fin qb =>
      .ok ⟨out.dtype, [steps.toNat], (linspaceVals qa qb steps.toNat).map FP.fin⟩
    | _, _ => .ok ⟨out.dtype, [steps.toNat], List.replicate steps.toNat FP.nan⟩

/- ## Accumulation kernels (modelled from the spec) -/

/-- Modelled from the spec: the bin-locating rule of the histogram
accumulation kernel.  For an edge sequence of K+1 edges, locate the bin index
i with edges[i] <= x < edges[i+1], with the special rule that the final bin
(i = K-1) is closed on both ends (x == edges[K] also counts); a coordinate
matching no bin (in particular one strictly outside the outer edges) yields
none, so the point is skipped. -/
def binIndex (edges : List FP) (x : FP) : Option ℕ :=
  let K := edges.length - 1
  (List.range K).find? (fun i =>
    FP.fle (edges.getD i FP.nan) x &&
      (FP.flt x (edges.getD (i + 1) FP.nan) ||
       (decide (i = K - 1) && FP.feq x (edges.getD K FP.nan))))

/-- Row-major linearization of the per-dimension bin indices of one point;
none when any dimension rejects its coordinate (the whole point is dropped). -/
def pointStep (acc : Option ℕ) (p : List FP × FP) : Option ℕ :=
  match acc, binIndex p.1 p.2 with
  | some a, some i => some (a * (p.1.length - 1) + i)
  | _, _ => none

def pointIdx (eds : List (List FP)) (coords : List FP) : Option ℕ :=
  (eds.zip coords).foldl pointStep (some 0)

/-- The weight of sample point m: its entry in the weight tensor, or 1. -/
def weightAt (weight : Option Tensor) (m : ℕ) : FP :=
  match weight with
  | none => FP.fin 1
  | some w => w.data.getD m FP.nan

/-- Row-major multi-index of flat cell c in a histogram of per-dimension bin
counts Ks. -/
def multiIndex (Ks : List ℕ) (c : ℕ) : List ℕ :=
  (Ks.reverse.foldl
    (fun st K => (st.1 / K, (st.1 % K) :: st.2))
    ((c, []) : ℕ × List ℕ)).2

/-- The volume of cell c: the product over dimensions of its edge spacing. -/
def cellVol (eds : List (List FP)) (c : ℕ) : FP :=
  ((eds.zip (multiIndex (eds.map (fun e => e.length - 1)) c)).map
    (fun p => FP.fsub (p.1.getD (p.2 + 1) FP.nan) (p.1.getD p.2 FP.nan))).foldl
    FP.fmul (FP.fin 1)

/-- Modelled from the spec: the density normalization post-pass.  Each cell
is divided by (total weight times cell volume); a zero total leaves the
counts unchanged. -/
def densityNorm (eds : List (List FP)) (cells : List FP) : List FP :=
  let W := cells.foldl FP.fadd (FP.fin 0)
  if FP.feq W (FP.fin 0) then cells
  else cells.mapIdx (fun c v => FP.fdiv v (FP.fmul W (cellVol eds c)))

/-- One accumulation step: bin a single point's coordinates; if any dimension
rejects its coordinate the cell values are returned unchanged (the whole
point is dropped); otherwise the weight w is added into the linearized cell. -/
def accumPoint (eds : List (List FP)) (coords : List FP) (w : FP)
    (cs : List FP) : List FP :=
  match pointIdx eds coords with
  | none => cs
  | some idx => cs.set idx (FP.fadd (cs.getD idx (FP.fin 0)) w)

/-- Modelled from the spec: the histogramdd accumulation kernel
(histogramdd_stub).  Zero-fills the histogram buffer, then, for each of the M
points of the (implicitly reshaped) input, bins every coordinate
independently, drops the point if any coordinate is rejected, and otherwise
adds the point's weight into the row-major-linearized cell; finally applies
the density normalization when requested.  Mutates only hist. -/
def histogramdd_accum (self : Tensor) (weight : Option Tensor) (density : Bool)
    (hist : Tensor) (bin_edges : List Tensor) : Tensor :=
  let N := self.sizeLast
  let M := self.shape.dropLast.prod
  let eds := bin_edges.map Tensor.data
  let cells0 : List FP := List.replicate hist.numel (FP.fin 0)
  let cells := (List.range M).foldl
    (fun cs m =>
      accumPoint eds ((List.range N).map (fun j => coordAt self N m j))
        (weightAt weight m) cs)
    cells0
  ⟨hist.dtype, hist.shape, if density then densityNorm eds cells else cells⟩

/-- Modelled from the spec: the uniform-edge accumulation kernel
(histogramdd_linear_stub); the spec states it is semantically identical to
the generic kernel for the uniform edges it is invoked on, so it is modelled
by the same function.  The trailing flag (local_search) selects an internal
search strategy and does not affect the result. -/
def histogramdd_linear_accum (self : Tensor) (weight : Option Tensor)
    (density : Bool) (hist : Tensor) (bin_edges : List Tensor)
    (_local_search : Bool) : Tensor :=
  histogramdd_accum self weight density hist bin_edges

/- ## Entry points (Histogram.cpp lines 231-407) -/

/-- Result of an out-variant entry point: the error raised (if any) together
with the final state of the caller-visible output buffers, reflecting any
mutation performed before the error was raised. -/
structure HistOut where
  err : Option Err
  hist : Tensor
  bin_edges : List Tensor
deriving DecidableEq, Repr

/-- allocate_bin_edges_tensors: checks the input has at least 2 dimensions,
then allocates one fresh empty tensor per innermost-dimension coordinate. -/
def allocate_bin_edges_tensors (self : Tensor) : Except Err (List Tensor) :=
  if self.dim < 2 then
    .error (.invalidArgument "input tensor should have at least 2 dimensions")
  else .ok (List.replicate self.sizeLast (empty0 self.dtype))

/-- histogramdd_out_cpu (TensorList overload, lines 243-255): validate
inputs, prepare outputs, copy the caller's edge tensors into the output edge
buffers, then accumulate. -/
def histogramdd_out_cpu_tl (self : Tensor) (bins : List Tensor)
    (weight : Option Tensor) (density : Bool)
    (hist : Tensor) (bin_edges : List Tensor) : HistOut :=
  match histogramdd_check_inputs self bins weight with
  | .error e => ⟨some e, hist, bin_edges⟩
  | .ok () =>
    match histogramdd_prepare_out_tl self bins hist bin_edges with
    | (some e, hist1, edges1) => ⟨some e, hist1, edges1⟩
    | (none, hist1, edges1) =>
      let edges2 := (edges1.zip bins).map (fun p => tensor_copy p.1 p.2)
      ⟨none, histogramdd_accum self weight density hist1 edges2, edges2⟩

/-- The reshape of self to (M, N) performed by the bin-count pipeline. -/
def reshapeMN (self : Tensor) : Tensor :=
  ⟨self.dtype, [self.shape.dropLast.prod, self.sizeLast], self.data⟩

/-- The per-dimension linspace loop of histogramdd_bin_edges_out_cpu:
materializes bin_ct[d] + 1 evenly spaced edges between the resolved outer
pair of each dimension; on a linspace failure the earlier dimensions keep
their materialized state. -/
def linspaceLoop : List ((FP × FP) × ℤ × Tensor) → Option Err × List Tensor
  | [] => (none, [])
  | (p, k, t) :: rest =>
    match linspace_cpu_out p.1 p.2 (k + 1) t with
    | .error e => (some e, t :: rest.map (fun q => q.2.2))
    | .ok t' =>
      let r := linspaceLoop rest
      (r.1, t' :: r.2)

/-- histogramdd_bin_edges_out_cpu (lines 270-289): reshape to (M, N), resolve
the outer bin edges, then materialize each dimension's edges by linspace. -/
def histogramdd_bin_edges_out_cpu (self : Tensor) (bin_ct : List ℤ)
    (range : Option (List FP)) (bin_edges_out : List Tensor) :
    Option Err × List Tensor :=
  match select_outer_bin_edges (reshapeMN self) range with
  | .error e => (some e, bin_edges_out)
  | .ok pairs => linspaceLoop (pairs.zip (bin_ct.zip bin_edges_out))

/-- histogramdd_bin_edges_cpu (lines 291-296): allocate fresh edge tensors,
then fill them. -/
def histogramdd_bin_edges_cpu (self : Tensor) (bin_ct : List ℤ)
    (range : Option (List FP)) : Except Err (List Tensor) :=
  match allocate_bin_edges_tensors self with
  | .error e => .error e
  | .ok fresh =>
    match histogramdd_bin_edges_out_cpu self bin_ct range fresh with
    | (some e, _) => .error e
    | (none, ts) => .ok ts

/-- histogramdd_out_cpu (IntArrayRef overload, lines 298-313): materialize
the edges into fresh internal tensors, validate inputs, prepare outputs, copy
the internal edge tensors into the output edge buffers, then accumulate with
the linear kernel. -/
def histogramdd_out_cpu_ct (self : Tensor) (bin_ct : List ℤ)
    (range : Option (List FP)) (weight : Option Tensor) (density : Bool)
    (hist : Tensor) (bin_edges : List Tensor) : HistOut :=
  match histogramdd_bin_edges_cpu self bin_ct range with
  | .error e => ⟨some e, hist, bin_edges⟩
  | .ok bins =>
    match histogramdd_check_inputs self bins weight with
    | .error e => ⟨some e, hist, bin_edges⟩
    | .ok () =>
      match histogramdd_prepare_out_tl self bins hist bin_edges with
      | (some e, hist1, edges1) => ⟨some e, hist1, edges1⟩
      | (none, hist1, edges1) =>
        let edges2 := (edges1.zip bins).map (fun p => tensor_copy p.1 p.2)
        ⟨none, histogramdd_linear_accum self weight density hist1 edges2 true, edges2⟩

/-- The reshape of self to (numel, 1) performed by the 1-D entry points. -/
def reshapeFlat (self : Tensor) : Tensor :=
  ⟨self.dtype, [self.numel, 1], self.data⟩

/-- The flattening of the optional weight performed by the 1-D entry points. -/
def flattenWeight (weight : Option Tensor) : Option Tensor :=
  weight.map (fun w => ⟨w.dtype, [w.numel], w.data⟩)

/-- histogram_out_cpu (edge-tensor overload, lines 328-341): a facade that
reshapes the input to (numel, 1), flattens the weight, and delegates to the
TensorList histogramdd pipeline with singleton lists. -/
def histogram_out_cpu_edges (self : Tensor) (bins : Tensor)
    (weight : Option Tensor) (density : Bool)
    (hist : Tensor) (bin_edges : Tensor) : HistOut :=
  histogramdd_out_cpu_tl (reshapeFlat self) [bins] (flattenWeight weight)
    density hist [bin_edges]

/-- histogram_out_cpu (bin-count overload, lines 353-371): reshapes to
(numel, 1), prepares/resizes the outputs, then resolves the outer edges,
materializes them by linspace into the output edge buffer, validates inputs,
and accumulates with the linear kernel.  Note the preparation (and its
resizing) precedes the outer-range resolution and the input validation. -/
def histogram_out_cpu_ct (self : Tensor) (bin_ct : ℤ)
    (range : Option (List FP)) (weight : Option Tensor) (density : Bool)
    (hist : Tensor) (bin_edges : Tensor) : HistOut :=
  let reshaped := reshapeFlat self
  let rweight := flattenWeight weight
  match histogramdd_prepare_out_ct reshaped [bin_ct] hist [bin_edges] with
  | (some e, hist1, edges1) => ⟨some e, hist1, edges1⟩
  | (none, hist1, edges1) =>
    let be1 := edges1.getD 0 bin_edges
    match select_outer_bin_edges reshaped range with
    | .error e => ⟨some e, hist1, edges1⟩
    | .ok pairs =>
      let p := pairs.getD 0 (FP.nan, FP.nan)
      match linspace_cpu_out p.1 p.2 (bin_ct + 1) be1 with
      | .error e => ⟨some e, hist1, edges1⟩
      | .ok be2 =>
        match histogramdd_check_inputs reshaped [be2] rweight with
        | .error e => ⟨some e, hist1, [be2]⟩
        | .ok () =>
          ⟨none, histogramdd_linear_accum reshaped rweight density hist1 [be2] true, [be2]⟩

/-- histogram_histc_cpu_out (lines 383-401): the legacy histc entry point.  A
fresh local bin_edges tensor is allocated (not caller-visible); the input is
reshaped to (numel, 1); the outputs are prepared/resized; the histc outer
edge policy resolves the bounds; linspace materializes the edges; inputs are
validated; and the linear kernel accumulates with no weight and no density.
Only hist is caller-visible. -/
def histogram_histc_cpu_out (self : Tensor) (bin_ct : ℤ) (fmin fmax : FP)
    (hist : Tensor) : Option Err × Tensor :=
  let bin_edges := empty0 self.dtype
  let reshaped := reshapeFlat self
  match histogramdd_prepare_out_ct reshaped [bin_ct] hist [bin_edges] with
  | (some e, hist1, _) => (some e, hist1)
  | (none, hist1, edges1) =>
    let be1 := edges1.getD 0 bin_edges
    match histc_select_outer_bin_edges self fmin fmax with
    | .error e => (some e, hist1)
    | .ok p =>
      match linspace_cpu_out p.1 p.2 (bin_ct + 1) be1 with
      | .error e => (some e, hist1)
      | .ok be2 =>
        match histogramdd_check_inputs reshaped [be2] none with
        | .error e => (some e, hist1)
        | .ok () =>
          (none, histogramdd_linear_accum reshaped none false hist1 [be2] false)

/- ## Helper lemmas -/

lemma checkBinsLoop_ok_iff (dt : DType) (bs : List Tensor) :
    checkBinsLoop dt bs = .ok () ↔
      ∀ b ∈ bs, b.dtype = dt ∧ b.dim = 1 ∧ 0 < b.numel := by
  induction bs with
  | nil => simp [checkBinsLoop]
  | cons b rest ih =>
    simp only [checkBinsLoop]
    by_cases h1 : b.dtype ≠ dt
    · simp [h1]
    · by_cases h2 : b.dim ≠ 1
      · simp [h1, h2]
      · by_cases h3 : ¬ (0 < b.numel)
        · simp [h1, h2, h3]
        · push_neg at h1 h2 h3
          simp [h1, h2, h3, ih]

lemma checkBinsLoop_inv (dt : DType) (bs : List Tensor) :
    checkBinsLoop dt bs = .ok () ∨
      ∃ m, checkBinsLoop dt bs = .error (.invalidArgument m) := by
  induction bs with
  | nil => simp [checkBinsLoop]
  | cons b rest ih =>
    simp only [checkBinsLoop]
    by_cases h1 : b.dtype ≠ dt
    · simp [h1]
    · by_cases h2 : b.dim ≠ 1
      · simp [h1, h2]
      · by_cases h3 : ¬ (0 < b.numel)
        · simp [h1, h2, h3]
        · simp [h1, h2, h3, ih]

lemma prepLoop_fst_none_iff (dt : DType) (l : List (ℤ × Tensor)) :
    (prepLoop dt l).1 = none ↔ ∀ p ∈ l, p.2.dtype = dt ∧ 0 < p.1 := by
  induction l with
  | nil => simp [prepLoop]
  | cons p rest ih =>
    obtain ⟨k, t⟩ := p
    simp only [prepLoop]
    by_cases h1 : t.dtype ≠ dt
    · simp [h1]
    · by_cases h2 : ¬ (0 < k)
      · simp [h1, h2]
      · push_neg at h1 h2
        simp [h1, h2, ih]

lemma prepLoop_ok_eq (dt : DType) (l : List (ℤ × Tensor))
    (h : ∀ p ∈ l, p.2.dtype = dt ∧ 0 < p.1) :
    prepLoop dt l = (none, l.map (fun p => resize_output p.2 [p.1.toNat + 1])) := by
  induction l with
  | nil => simp [prepLoop]
  | cons p rest ih =>
    obtain ⟨k, t⟩ := p
    have h1 : t.dtype = dt := (h (k, t) (List.mem_cons_self _ _)).1
    have h2 : 0 < k := (h (k, t) (List.mem_cons_self _ _)).2
    have hrest := ih (fun q hq => h q (List.mem_cons_of_mem _ hq))
    simp [prepLoop, h1, h2, hrest]

lemma prepLoop_err_inv (dt : DType) (l : List (ℤ × Tensor)) (e : Err)
    (h : (prepLoop dt l).1 = some e) : ∃ m, e = .invalidArgument m := by
  induction l with
  | nil => simp [prepLoop] at h
  | cons p rest ih =>
    obtain ⟨k, t⟩ := p
    simp only [prepLoop] at h
    by_cases h1 : t.dtype ≠ dt
    · simp [h1] at h
      exact ⟨_, h.symm⟩
    · by_cases h2 : ¬ (0 < k)
      · simp [h1, h2] at h
        exact ⟨_, h.symm⟩
      · simp [h1, h2] at h
        exact ih h

lemma map_shape_resize_zip (ks : List ℤ) (ts : List Tensor)
    (h : ks.length = ts.length) :
    ((ks.zip ts).map (fun p => resize_output p.2 [p.1.toNat + 1])).map Tensor.shape
      = ks.map (fun k => [k.toNat + 1]) := by
  induction ks generalizing ts with
  | nil => simp
  | cons k rest ih =>
    cases ts with
    | nil => simp at h
    | cons t ts' =>
      simp only [List.length_cons, Nat.succ.injEq] at h
      simp only [List.zip_cons_cons, List.map_cons, ih ts' h]
      rfl

lemma map_shape_copy_zip (es bs : List Tensor) (h : es.length = bs.length) :
    ((es.zip bs).map (fun p => tensor_copy p.1 p.2)).map Tensor.shape
      = es.map Tensor.shape := by
  induction es generalizing bs with
  | nil => simp
  | cons e rest ih =>
    cases bs with
    | nil => simp at h
    | cons b bs' =>
      simp only [List.length_cons, Nat.succ.injEq] at h
      simp only [List.zip_cons_cons, List.map_cons, ih bs' h]
      rfl

lemma map_data_copy_zip (es bs : List Tensor) (h : es.length = bs.length) :
    ((es.zip bs).map (fun p => tensor_copy p.1 p.2)).map Tensor.data
      = bs.map Tensor.data := by
  induction es generalizing bs with
  | nil =>
    cases bs with
    | nil => simp
    | cons b bs' => simp at h
  | cons e rest ih =>
    cases bs with
    | nil => simp at h
    | cons b bs' =>
      simp only [List.length_cons, Nat.succ.injEq] at h
      simp only [List.zip_cons_cons, List.map_cons, ih bs' h]
      rfl

lemma zip3_map_mid {α β γ δ : Type} (f : β → δ) (as : List α) (bs : List β)
    (cs : List γ) (h1 : as.length = bs.length) (h2 : bs.length = cs.length) :
    ((as.zip (bs.zip cs)).map (fun q => f q.2.1)) = bs.map f := by
  induction as generalizing bs cs with
  | nil =>
    cases bs with
    | nil => simp
    | cons b bs' => simp at h1
  | cons a as' ih =>
    cases bs with
    | nil => simp at h1
    | cons b bs' =>
      cases cs with
      | nil => simp at h2
      | cons c cs' =>
        simp only [List.length_cons, Nat.succ.injEq] at h1 h2
        simp only [List.zip_cons_cons, List.map_cons, ih bs' cs' h1 h2]

/-- Success characterization of histogramdd_prepare_out (bin_ct overload). -/
lemma prepare_ct_ok (input : Tensor) (ks : List ℤ) (hist : Tensor)
    (bes : List Tensor) (h' : Tensor) (es' : List Tensor)
    (h : histogramdd_prepare_out_ct input ks hist bes = (none, h', es')) :
    ks.length = input.sizeLast ∧ bes.length = input.sizeLast ∧
    hist.dtype = input.dtype ∧
    h' = resize_output hist (ks.map Int.toNat) ∧
    es' = (ks.zip bes).map (fun p => resize_output p.2 [p.1.toNat + 1]) ∧
    ∀ p ∈ ks.zip bes, p.2.dtype = input.dtype ∧ 0 < p.1 := by
  unfold histogramdd_prepare_out_ct at h
  by_cases hl : ks.length ≠ input.sizeLast ∨ bes.length ≠ input.sizeLast
  · rw [if_pos hl] at h
    exact absurd h (by simp)
  · rw [if_neg hl] at h
    push_neg at hl
    by_cases hdt : hist.dtype ≠ input.dtype
    · rw [if_pos hdt] at h
      exact absurd h (by simp)
    · rw [if_neg hdt] at h
      push_neg at hdt
      rcases hp : prepLoop input.dtype (ks.zip bes) with ⟨oe, ts⟩
      rw [hp] at h
      cases oe with
      | some e => simp at h
      | none =>
        simp only [Prod.mk.injEq, true_and] at h
        have hfst : (prepLoop input.dtype (ks.zip bes)).1 = none := by rw [hp]
        have hall := (prepLoop_fst_none_iff input.dtype (ks.zip bes)).mp hfst
        have hts : ts = (ks.zip bes).map (fun p => resize_output p.2 [p.1.toNat + 1]) := by
          have h2 := prepLoop_ok_eq input.dtype (ks.zip bes) hall
          rw [hp] at h2
          exact congrArg Prod.snd h2
        exact ⟨hl.1, hl.2, hdt, h.1.symm, hts ▸ h.2.symm, hall⟩

/-- Failure characterization of histogramdd_prepare_out (bin_ct overload):
with consistent lengths, a hist/edge dtype mismatch or a non-positive bin
count yields an invalid-argument error. -/
lemma prepare_ct_fail (input : Tensor) (ks : List ℤ) (hist : Tensor)
    (bes : List Tensor)
    (hlen1 : ks.length = input.sizeLast) (hlen2 : bes.length = input.sizeLast)
    (hbad : hist.dtype ≠ input.dtype ∨
      ∃ p ∈ ks.zip bes, p.2.dtype ≠ input.dtype ∨ ¬ 0 < p.1) :
    ∃ m, (histogramdd_prepare_out_ct input ks hist bes).1
      = some (.invalidArgument m) := by
  unfold histogramdd_prepare_out_ct
  have hl : ¬ (ks.length ≠ input.sizeLast ∨ bes.length ≠ input.sizeLast) := by
    push_neg
    exact ⟨hlen1, hlen2⟩
  rw [if_neg hl]
  by_cases hdt : hist.dtype ≠ input.dtype
  · rw [if_pos hdt]
    exact ⟨_, rfl⟩
  · rw [if_neg hdt]
    push_neg at hdt
    have hne : ¬ (prepLoop input.dtype (ks.zip bes)).1 = none := by
      rw [prepLoop_fst_none_iff]
      rcases hbad with hb | ⟨p, hp, hbp⟩
      · exact absurd hdt hb
      · intro hall
        rcases hbp with hb1 | hb2
        · exact hb1 (hall p hp).1
        · exact hb2 (hall p hp).2
    rcases hp : prepLoop input.dtype (ks.zip bes) with ⟨oe, ts⟩
    cases oe with
    | none => exact absurd (by rw [hp]) hne
    | some e =>
      obtain ⟨m, hm⟩ := prepLoop_err_inv input.dtype (ks.zip bes) e (by rw [hp])
      subst hm
      exact ⟨m, rfl⟩

/-- A valid outer pair: both endpoints finite and left <= right. -/
def validPair (p : FP × FP) : Prop :=
  (p.1.isfinite && p.2.isfinite) = true ∧ FP.fle p.1 p.2 = true

instance (p : FP × FP) : Decidable (validPair p) := by
  unfold validPair
  infer_instance

lemma souterValidate_ok_of (l : List (FP × FP)) (h : ∀ p ∈ l, validPair p) :
    souterValidate l = .ok (l.map expandPair) := by
  induction l with
  | nil => simp [souterValidate]
  | cons p rest ih =>
    obtain ⟨pl, pr⟩ := p
    have h1 : (pl.isfinite && pr.isfinite) = true := (h (pl, pr) (List.mem_cons_self _ _)).1
    have h2 : FP.fle pl pr = true := (h (pl, pr) (List.mem_cons_self _ _)).2
    have hrest := ih (fun q hq => h q (List.mem_cons_of_mem _ hq))
    simp [souterValidate, h1, h2, hrest]

lemma souterValidate_ok_inv (l : List (FP × FP)) (ps : List (FP × FP))
    (h : souterValidate l = .ok ps) :
    ps = l.map expandPair ∧ ∀ p ∈ l, validPair p := by
  induction l generalizing ps with
  | nil =>
    simp only [souterValidate, Except.ok.injEq] at h
    subst h
    simp
  | cons p rest ih =>
    obtain ⟨pl, pr⟩ := p
    simp only [souterValidate] at h
    by_cases h1 : ¬ ((pl.isfinite && pr.isfinite) = true)
    · rw [if_pos h1] at h
      exact absurd h (by simp)
    · rw [if_neg h1] at h
      push_neg at h1
      by_cases h2 : ¬ (FP.fle pl pr = true)
      · rw [if_pos h2] at h
        exact absurd h (by simp)
      · rw [if_neg h2] at h
        push_neg at h2
        rcases hrec : souterValidate rest with e | qs
        · rw [hrec] at h
          exact absurd h (by simp)
        · rw [hrec] at h
          simp only [Except.ok.injEq] at h
          obtain ⟨hqs, hall⟩ := ih qs hrec
          constructor
          · rw [← h, hqs]
            rfl
          · intro q hq
            rcases List.mem_cons.mp hq with rfl | hq'
            · exact ⟨h1, h2⟩
            · exact hall q hq'

lemma souterValidate_err_of (l : List (FP × FP))
    (h : ∃ p ∈ l, ¬ validPair p) :
    ∃ m, souterValidate l = .error (.invalidArgument m) := by
  induction l with
  | nil => simp at h
  | cons p rest ih =>
    obtain ⟨pl, pr⟩ := p
    simp only [souterValidate]
    by_cases h1 : ¬ ((pl.isfinite && pr.isfinite) = true)
    · rw [if_pos h1]
      exact ⟨_, rfl⟩
    · rw [if_neg h1]
      push_neg at h1
      by_cases h2 : ¬ (FP.fle pl pr = true)
      · rw [if_pos h2]
        exact ⟨_, rfl⟩
      · rw [if_neg h2]
        push_neg at h2
        have hbad : ∃ q ∈ rest, ¬ validPair q := by
          rcases h with ⟨q, hq, hbq⟩
          rcases List.mem_cons.mp hq with rfl | hq'
          · exact absurd ⟨h1, h2⟩ hbq
          · exact ⟨q, hq', hbq⟩
        obtain ⟨m, hm⟩ := ih hbad
        rw [hm]
        exact ⟨m, rfl⟩

lemma linspace_ok_shape (a b : FP) (s : ℤ) (out t : Tensor)
    (h : linspace_cpu_out a b s out = .ok t) :
    t.shape = [s.toNat] ∧ t.dtype = out.dtype ∧ 0 ≤ s := by
  unfold linspace_cpu_out at h
  by_cases hs : s < 0
  · rw [if_pos hs] at h
    exact absurd h (by simp)
  · rw [if_neg hs] at h
    push_neg at hs
    cases a <;> cases b <;>
      simp only [Except.ok.injEq] at h <;>
      exact ⟨by rw [← h], by rw [← h], hs⟩

lemma linspaceLoop_ok_inv (l : List ((FP × FP) × ℤ × Tensor)) (ts : List Tensor)
    (h : linspaceLoop l = (none, ts)) :
    ts.map Tensor.shape = l.map (fun q => [(q.2.1 + 1).toNat]) ∧
    ∀ q ∈ l, 0 ≤ q.2.1 + 1 := by
  induction l generalizing ts with
  | nil =>
    simp only [linspaceLoop, Prod.mk.injEq, true_and] at h
    subst h
    simp
  | cons q rest ih =>
    obtain ⟨p, k, t⟩ := q
    simp only [linspaceLoop] at h
    rcases hls : linspace_cpu_out p.1 p.2 (k + 1) t with e | t'
    · rw [hls] at h
      exact absurd h (by simp)
    · rw [hls] at h
      rcases hrec : linspaceLoop rest with ⟨oe, ts'⟩
      rw [hrec] at h
      simp only [Prod.mk.injEq] at h
      obtain ⟨hsh, hdt, hpos⟩ := linspace_ok_shape _ _ _ _ _ hls
      cases oe with
      | some e => exact absurd h.1 (by simp)
      | none =>
        obtain ⟨hsh', hall⟩ := ih ts' hrec
        constructor
        · rw [← h.2, List.map_cons, hsh, hsh', List.map_cons]
        · intro q' hq'
          rcases List.mem_cons.mp hq' with rfl | hq''
          · exact hpos
          · exact hall q' hq''

lemma check_inputs_ok_iff (input : Tensor) (bins : List Tensor)
    (weight : Option Tensor) :
    histogramdd_check_inputs input bins weight = .ok () ↔
      (2 ≤ input.dim ∧ bins.length = input.sizeLast ∧
       (∀ b ∈ bins, b.dtype = input.dtype ∧ b.dim = 1 ∧ 0 < b.numel) ∧
       ∀ w, weight = some w →
         w.dtype = input.dtype ∧
         input.shape.dropLast = (if w.shape = [] then [1] else w.shape)) := by
  unfold histogramdd_check_inputs
  by_cases hd : input.dim < 2
  · rw [if_pos hd]
    simp only [Nat.not_le.mpr hd, false_and, iff_false]
    simp
  · rw [if_neg hd]
    push_neg at hd
    by_cases hb : bins.length ≠ input.sizeLast
    · rw [if_pos hb]
      simp only [hb, false_and, and_false, iff_false]
      simp
    · rw [if_neg hb]
      push_neg at hb
      rcases hcb : checkBinsLoop input.dtype bins with e | u
      · have hnl : ¬ ∀ b ∈ bins, b.dtype = input.dtype ∧ b.dim = 1 ∧ 0 < b.numel := by
          intro hall
          rw [(checkBinsLoop_ok_iff input.dtype bins).mpr hall] at hcb
          exact absurd hcb (by simp)
        simp only [hnl, false_and, and_false, iff_false]
        simp
      · have hall := (checkBinsLoop_ok_iff input.dtype bins).mp (by rw [hcb])
        cases u
        dsimp only
        cases weight with
        | none =>
          simp only [iff_true_intro hall, hd, hb, true_and, and_true]
          simp
        | some w =>
          dsimp only
          by_cases hw : w.dtype ≠ input.dtype
          · rw [if_pos hw]
            constructor
            · intro hcontra
              exact absurd hcontra (by simp)
            · rintro ⟨-, -, -, hwc⟩
              exact absurd (hwc w rfl).1 hw
          · rw [if_neg hw]
            push_neg at hw
            by_cases hws : input.shape.dropLast ≠ (if w.shape = [] then [1] else w.shape)
            · rw [if_pos hws]
              constructor
              · intro hcontra
                exact absurd hcontra (by simp)
              · rintro ⟨-, -, -, hwc⟩
                exact absurd (hwc w rfl).2 hws
            · rw [if_neg hws]
              push_neg at hws
              constructor
              · intro
                exact ⟨hd, hb, hall, fun v hv => by
                  rw [Option.some.injEq] at hv
                  subst hv
                  exact ⟨hw, hws⟩⟩
              · intro
                rfl

lemma check_inputs_inv (input : Tensor) (bins : List Tensor)
    (weight : Option Tensor) :
    histogramdd_check_inputs input bins weight = .ok () ∨
      ∃ m, histogramdd_check_inputs input bins weight
        = .error (.invalidArgument m) := by
  unfold histogramdd_check_inputs
  by_cases hd : input.dim < 2
  · rw [if_pos hd]
    exact Or.inr ⟨_, rfl⟩
  · rw [if_neg hd]
    by_cases hb : bins.length ≠ input.sizeLast
    · rw [if_pos hb]
      exact Or.inr ⟨_, rfl⟩
    · rw [if_neg hb]
      rcases hcb : checkBinsLoop input.dtype bins with e | u
      · rcases checkBinsLoop_inv input.dtype bins with hok | ⟨m, hm⟩
        · rw [hok] at hcb
          exact absurd hcb (by simp)
        · rw [hm] at hcb
          simp only [Except.error.injEq] at hcb
          subst hcb
          exact Or.inr ⟨m, rfl⟩
      · cases u
        dsimp only
        cases weight with
        | none => exact Or.inl rfl
        | some w =>
          dsimp only
          by_cases hw : w.dtype ≠ input.dtype
          · rw [if_pos hw]
            exact Or.inr ⟨_, rfl⟩
          · rw [if_neg hw]
            by_cases hws : input.shape.dropLast ≠ (if w.shape = [] then [1] else w.shape)
            · rw [if_pos hws]
              exact Or.inr ⟨_, rfl⟩
            · rw [if_neg hws]
              exact Or.inl rfl

lemma fle_fin_fin (a b : ℚ) : FP.fle (FP.fin a) (FP.fin b) = decide (a ≤ b) := rfl

lemma feq_fin_fin (a b : ℚ) : FP.feq (FP.fin a) (FP.fin b) = decide (a = b) := rfl

lemma flt_fin_fin (a b : ℚ) : FP.flt (FP.fin a) (FP.fin b) = decide (a < b) := by
  by_cases h : a < b
  · simp [FP.flt, fle_fin_fin, feq_fin_fin, le_of_lt h, ne_of_lt h, h]
  · by_cases he : a = b
    · simp [FP.flt, fle_fin_fin, feq_fin_fin, he, h]
    · have hle : ¬ a ≤ b := fun hc => h (lt_of_le_of_ne hc he)
      simp [FP.flt, fle_fin_fin, feq_fin_fin, hle, h]

lemma getD_map_fin (qs : List ℚ) (i : ℕ) (h : i < qs.length) :
    (qs.map FP.fin).getD i FP.nan = FP.fin (qs.getD i 0) := by
  simp [List.getD_eq_getElem?_getD, List.getElem?_map, List.getElem?_eq_getElem h]

lemma forall_fst_of_zip {α β : Type} {P : α → Prop} :
    ∀ (l1 : List α) (l2 : List β), l1.length = l2.length →
      (∀ p ∈ l1.zip l2, P p.1) → ∀ a ∈ l1, P a := by
  intro l1
  induction l1 with
  | nil => simp
  | cons x xs ih =>
    intro l2 hlen hall a ha
    cases l2 with
    | nil => simp at hlen
    | cons y ys =>
      simp only [List.length_cons, Nat.succ.injEq] at hlen
      rcases List.mem_cons.mp ha with rfl | ha'
      · exact hall (a, y) (List.mem_cons_self _ _)
      · exact ih ys hlen (fun p hp => hall p (List.mem_cons_of_mem _ hp)) a ha'

lemma zip_getD_mem {α β : Type} (l1 : List α) (l2 : List β) (d : ℕ)
    (a : α) (b : β) (hd : d < l1.length) (hlen : l1.length = l2.length) :
    (l1.getD d a, l2.getD d b) ∈ l1.zip l2 := by
  induction l1 generalizing l2 d with
  | nil => simp at hd
  | cons x xs ih =>
    cases l2 with
    | nil => simp at hlen
    | cons y ys =>
      simp only [List.length_cons, Nat.succ.injEq] at hlen
      cases d with
      | zero => simp
      | succ d' =>
        simp only [List.length_cons, Nat.succ_lt_succ_iff] at hd
        simp only [List.getD_cons_succ, List.zip_cons_cons]
        exact List.mem_cons_of_mem _ (ih ys d' hd hlen)

lemma souterRaw_ok_len (input : Tensor) (range : Option (List FP))
    (ls rs : List FP) (h : souterRaw input range = .ok (ls, rs)) :
    ls.length = input.sizeLast ∧ rs.length = input.sizeLast := by
  unfold souterRaw at h
  cases range with
  | some r =>
    dsimp only at h
    by_cases hlen : r.length ≠ 2 * input.sizeLast
    · rw [if_pos hlen] at h
      exact absurd h (by simp)
    · rw [if_neg hlen] at h
      simp only [Except.ok.injEq, Prod.mk.injEq] at h
      constructor
      · rw [← h.1]
        simp
      · rw [← h.2]
        simp
  | none =>
    dsimp only at h
    by_cases hn : 0 < input.numel
    · rw [if_pos hn] at h
      simp only [Except.ok.injEq] at h
      have h1 : (aminmax_dim0 input (input.shape.getD 0 0) input.sizeLast).1 = ls := by
        rw [h]
      have h2 : (aminmax_dim0 input (input.shape.getD 0 0) input.sizeLast).2 = rs := by
        rw [h]
      constructor
      · rw [← h1]
        simp [aminmax_dim0]
      · rw [← h2]
        simp [aminmax_dim0]
    · rw [if_neg hn] at h
      simp only [Except.ok.injEq, Prod.mk.injEq] at h
      constructor
      · rw [← h.1]
        simp
      · rw [← h.2]
        simp

lemma accum_shape (s : Tensor) (w : Option Tensor) (d : Bool) (h : Tensor)
    (es : List Tensor) : (histogramdd_accum s w d h es).shape = h.shape := rfl

lemma accum_dtype (s : Tensor) (w : Option Tensor) (d : Bool) (h : Tensor)
    (es : List Tensor) : (histogramdd_accum s w d h es).dtype = h.dtype := rfl

/-- Success inversion for the TensorList histogramdd entry point. -/
lemma out_tl_ok_inv (self : Tensor) (bins : List Tensor) (weight : Option Tensor)
    (density : Bool) (hist : Tensor) (bin_edges : List Tensor)
    (h : (histogramdd_out_cpu_tl self bins weight density hist bin_edges).err = none) :
    histogramdd_check_inputs self bins weight = .ok () ∧
    ∃ hist1 edges1,
      histogramdd_prepare_out_tl self bins hist bin_edges = (none, hist1, edges1) ∧
      histogramdd_out_cpu_tl self bins weight density hist bin_edges =
        ⟨none,
          histogramdd_accum self weight density hist1
            ((edges1.zip bins).map (fun p => tensor_copy p.1 p.2)),
          (edges1.zip bins).map (fun p => tensor_copy p.1 p.2)⟩ := by
  unfold histogramdd_out_cpu_tl at h ⊢
  rcases hc : histogramdd_check_inputs self bins weight with e | u
  · rw [hc] at h
    simp at h
  · cases u
    rcases hp : histogramdd_prepare_out_tl self bins hist bin_edges with ⟨oe, h1, es1⟩
    cases oe with
    | some e =>
      rw [hc, hp] at h
      simp at h
    | none => exact ⟨rfl, h1, es1, rfl, rfl⟩

/-- Failure inversion for the TensorList histogramdd entry point: on error the
outputs are unchanged unless the preparation stage itself raised the error. -/
lemma out_tl_err_inv (self : Tensor) (bins : List Tensor) (weight : Option Tensor)
    (density : Bool) (hist : Tensor) (bin_edges : List Tensor) (e : Err)
    (h : (histogramdd_out_cpu_tl self bins weight density hist bin_edges).err = some e) :
    ((histogramdd_out_cpu_tl self bins weight density hist bin_edges).hist = hist ∧
     (histogramdd_out_cpu_tl self bins weight density hist bin_edges).bin_edges = bin_edges) ∨
    (histogramdd_prepare_out_tl self bins hist bin_edges).1 = some e := by
  unfold histogramdd_out_cpu_tl at h ⊢
  rcases hc : histogramdd_check_inputs self bins weight with e' | u
  · exact Or.inl ⟨rfl, rfl⟩
  · cases u
    rcases hp : histogramdd_prepare_out_tl self bins hist bin_edges with ⟨oe, h1, es1⟩
    cases oe with
    | some e' =>
      rw [hc, hp] at h
      simp at h
      exact Or.inr (by rw [h])
    | none =>
      rw [hc, hp] at h
      simp at h

/-- Success inversion for the IntArrayRef histogramdd entry point. -/
lemma out_ct_ok_inv (self : Tensor) (bin_ct : List ℤ) (range : Option (List FP))
    (weight : Option Tensor) (density : Bool) (hist : Tensor)
    (bin_edges : List Tensor)
    (h : (histogramdd_out_cpu_ct self bin_ct range weight density hist bin_edges).err = none) :
    ∃ gbins,
      histogramdd_bin_edges_cpu self bin_ct range = .ok gbins ∧
      histogramdd_check_inputs self gbins weight = .ok () ∧
      ∃ hist1 edges1,
        histogramdd_prepare_out_tl self gbins hist bin_edges = (none, hist1, edges1) ∧
        histogramdd_out_cpu_ct self bin_ct range weight density hist bin_edges =
          ⟨none,
            histogramdd_linear_accum self weight density hist1
              ((edges1.zip gbins).map (fun p => tensor_copy p.1 p.2)) true,
            (edges1.zip gbins).map (fun p => tensor_copy p.1 p.2)⟩ := by
  unfold histogramdd_out_cpu_ct at h ⊢
  rcases hbe : histogramdd_bin_edges_cpu self bin_ct range with e | gbins
  · rw [hbe] at h
    simp at h
  · rcases hc : histogramdd_check_inputs self gbins weight with e | u
    · simp [hbe, hc] at h
    · cases u
      rcases hp : histogramdd_prepare_out_tl self gbins hist bin_edges with ⟨oe, h1, es1⟩
      cases oe with
      | some e => simp [hbe, hc, hp] at h
      | none => exact ⟨gbins, rfl, hc, h1, es1, hp, by simp [hc, hp]⟩

/-- Failure inversion for the IntArrayRef histogramdd entry point. -/
lemma out_ct_err_inv (self : Tensor) (bin_ct : List ℤ) (range : Option (List FP))
    (weight : Option Tensor) (density : Bool) (hist : Tensor)
    (bin_edges : List Tensor) (e : Err)
    (h : (histogramdd_out_cpu_ct self bin_ct range weight density hist bin_edges).err = some e) :
    ((histogramdd_out_cpu_ct self bin_ct range weight density hist bin_edges).hist = hist ∧
     (histogramdd_out_cpu_ct self bin_ct range weight density hist bin_edges).bin_edges = bin_edges) ∨
    ∃ gbins, histogramdd_bin_edges_cpu self bin_ct range = .ok gbins ∧
      (histogramdd_prepare_out_tl self gbins hist bin_edges).1 = some e := by
  unfold histogramdd_out_cpu_ct at h ⊢
  rcases hbe : histogramdd_bin_edges_cpu self bin_ct range with e' | gbins
  · exact Or.inl ⟨rfl, rfl⟩
  · rcases hc : histogramdd_check_inputs self gbins weight with e' | u
    · exact Or.inl (by constructor <;> simp [hc])
    · cases u
      rcases hp : histogramdd_prepare_out_tl self gbins hist bin_edges with ⟨oe, h1, es1⟩
      cases oe with
      | some e' =>
        simp [hbe, hc, hp] at h
        exact Or.inr ⟨gbins, rfl, by rw [hp, h]⟩
      | none => simp [hbe, hc, hp] at h

/- ## Claim theorems -/

/-- C6: histogramdd input validation succeeds exactly when the sample tensor
has rank >= 2, the number of edge sequences equals the sample's innermost
dimension, every edge sequence is 1-dimensional with at least 1 element and
shares the sample's element type, and any weight shares the sample's element
type and has the sample's shape with the innermost dimension removed (a
scalar weight being treated as shape [1]); any violation produces an
invalid-argument error.  The checker is a pure function, so it has no side
effects. -/
theorem C6_check_inputs_characterization :
    ∀ (input : Tensor) (bins : List Tensor) (weight : Option Tensor),
      (histogramdd_check_inputs input bins weight = .ok () ↔
        (2 ≤ input.dim ∧ bins.length = input.sizeLast ∧
         (∀ b ∈ bins, b.dtype = input.dtype ∧ b.dim = 1 ∧ 0 < b.numel) ∧
         ∀ w, weight = some w →
           w.dtype = input.dtype ∧
           input.shape.dropLast = (if w.shape = [] then [1] else w.shape))) ∧
      (histogramdd_check_inputs input bins weight = .ok () ∨
        ∃ m, histogramdd_check_inputs input bins weight
          = .error (.invalidArgument m)) :=
  fun input bins weight =>
    ⟨check_inputs_ok_iff input bins weight, check_inputs_inv input bins weight⟩

/-- C6 witness: a concrete instance of the characterization.  A valid
1-dimensional call passes validation, and dropping the bins list makes it
fail with an invalid-argument error. -/
theorem C6_check_inputs_characterization_witness :
    histogramdd_check_inputs ⟨.double, [1, 1], [.fin 0]⟩
        [⟨.double, [2], [.fin 0, .fin 1]⟩] none = .ok () ∧
    ∃ m, histogramdd_check_inputs ⟨.double, [1, 1], [.fin 0]⟩ [] none
      = .error (.invalidArgument m) := by
  constructor
  · exact (C6_check_inputs_characterization ⟨.double, [1, 1], [.fin 0]⟩
      [⟨.double, [2], [.fin 0, .fin 1]⟩] none).1.mpr (by decide)
  · rcases (C6_check_inputs_characterization ⟨.double, [1, 1], [.fin 0]⟩
      [] none).2 with hok | h
    · exact absurd ((C6_check_inputs_characterization ⟨.double, [1, 1], [.fin 0]⟩
        [] none).1.mp hok) (by decide)
    · exact h

/-- C1 counterexample: in the 1-D count+range entry point, the output buffers
are resized by the preparation stage before the outer-range validation runs:
with bin_ct = 1 and the malformed range [1, 0], the call fails the min <= max
range check (not the output type/shape check), yet the caller-visible hist
has already been resized from shape [0] to shape [1].  This contradicts the
claim that outer-range validation precedes any output mutation in every
entry point. -/
theorem C1_counterexample :
    (histogram_out_cpu_ct ⟨.double, [1], [.fin 5]⟩ 1
        (some [.fin 1, .fin 0]) none false (empty0 .double) (empty0 .double)).err
      = some (.invalidArgument "min should not exceed max") ∧
    (histogram_out_cpu_ct ⟨.double, [1], [.fin 5]⟩ 1
        (some [.fin 1, .fin 0]) none false (empty0 .double) (empty0 .double)).hist.shape
      = [1] ∧
    (empty0 .double).shape = [0] := by
  decide

/-- C1 (amended): for the histogramdd entry points (the explicit-edges
TensorList overload and the count+range IntArrayRef overload), a failing call
leaves the caller-visible hist and bin_edges buffers untouched unless the
failure was raised by the output-preparation stage - the output-buffer
type/shape and bin-count check, which runs after bin counts are known and may
resize some outputs before failing.  (As the counterexample shows, the 1-D
count+range and histc facades do not enjoy this property: they resize outputs
during preparation before the outer-range validation runs.) -/
theorem C1_failure_leaves_outputs_unchanged :
    (∀ (self : Tensor) (bins : List Tensor) (weight : Option Tensor)
        (density : Bool) (hist : Tensor) (bin_edges : List Tensor) (e : Err),
      (histogramdd_out_cpu_tl self bins weight density hist bin_edges).err = some e →
        ((histogramdd_out_cpu_tl self bins weight density hist bin_edges).hist = hist ∧
         (histogramdd_out_cpu_tl self bins weight density hist bin_edges).bin_edges = bin_edges) ∨
        (histogramdd_prepare_out_tl self bins hist bin_edges).1 = some e) ∧
    (∀ (self : Tensor) (bin_ct : List ℤ) (range : Option (List FP))
        (weight : Option Tensor) (density : Bool) (hist : Tensor)
        (bin_edges : List Tensor) (e : Err),
      (histogramdd_out_cpu_ct self bin_ct range weight density hist bin_edges).err = some e →
        ((histogramdd_out_cpu_ct self bin_ct range weight density hist bin_edges).hist = hist ∧
         (histogramdd_out_cpu_ct self bin_ct range weight density hist bin_edges).bin_edges = bin_edges) ∨
        ∃ gbins, histogramdd_bin_edges_cpu self bin_ct range = .ok gbins ∧
          (histogramdd_prepare_out_tl self gbins hist bin_edges).1 = some e) :=
  ⟨fun self bins weight density hist bin_edges e h =>
      out_tl_err_inv self bins weight density hist bin_edges e h,
   fun self bin_ct range weight density hist bin_edges e h =>
      out_ct_err_inv self bin_ct range weight density hist bin_edges e h⟩

/-- C1 witness: a concrete failing explicit-edges call (no edge sequences for
a 1-dimensional sample) that fails input validation, leaving the output
buffers untouched. -/
theorem C1_failure_leaves_outputs_unchanged_witness :
    ((histogramdd_out_cpu_tl ⟨.double, [1, 1], [.fin 0]⟩ [] none false
        (empty0 .double) []).hist = empty0 .double ∧
     (histogramdd_out_cpu_tl ⟨.double, [1, 1], [.fin 0]⟩ [] none false
        (empty0 .double) []).bin_edges = []) ∨
    (histogramdd_prepare_out_tl ⟨.double, [1, 1], [.fin 0]⟩ [] (empty0 .double) []).1
      = some (.invalidArgument "expected N sequences of bin edges") :=
  C1_failure_leaves_outputs_unchanged.1 ⟨.double, [1, 1], [.fin 0]⟩ [] none false
    (empty0 .double) [] (.invalidArgument "expected N sequences of bin edges")
    (by decide)

/-- Empty-input bin edge materialization: an (0, 1)-shaped sample with one
requested bin and no range produces the default edges [0, 1]. -/
lemma c3_bins : histogramdd_bin_edges_cpu ⟨.double, [0, 1], []⟩ [1] none
    = .ok [⟨.double, [2], [.fin 0, .fin 1]⟩] := by
  norm_num [histogramdd_bin_edges_cpu, allocate_bin_edges_tensors,
    histogramdd_bin_edges_out_cpu, reshapeMN, select_outer_bin_edges,
    souterRaw, aminmax_dim0, coordAt, souterValidate, expandPair,
    linspaceLoop, linspace_cpu_out, linspaceVals, empty0, Tensor.numel,
    Tensor.dim, Tensor.sizeLast, FP.fle, FP.feq, FP.addQ, FP.isfinite,
    List.range_succ, (by decide : Int.toNat 2 = 2),
    (by decide : Int.toNat 1 = 1)]

/-- The full empty-input pipeline: M = 0 rows, bin_counts [1], no range. -/
lemma c3_pipeline :
    histogramdd_out_cpu_ct ⟨.double, [0, 1], []⟩ [1] none none false
        (empty0 .double) [empty0 .double]
      = ⟨none, ⟨.double, [1], [.fin 0]⟩, [⟨.double, [2], [.fin 0, .fin 1]⟩]⟩ := by
  unfold histogramdd_out_cpu_ct
  rw [c3_bins]
  rfl

/-- Degenerate-input bin edge materialization: the single sample point 5 with
one requested bin and no range produces the expanded edges [4.5, 5.5]. -/
lemma c4_bins : histogramdd_bin_edges_cpu ⟨.double, [1, 1], [.fin 5]⟩ [1] none
    = .ok [⟨.double, [2], [.fin (9 / 2), .fin (11 / 2)]⟩] := by
  norm_num [histogramdd_bin_edges_cpu, allocate_bin_edges_tensors,
    histogramdd_bin_edges_out_cpu, reshapeMN, select_outer_bin_edges,
    souterRaw, aminmax_dim0, coordAt, souterValidate, expandPair,
    linspaceLoop, linspace_cpu_out, linspaceVals, empty0, Tensor.numel,
    Tensor.dim, Tensor.sizeLast, FP.fle, FP.feq, FP.addQ, FP.isfinite,
    List.range_succ, (by decide : Int.toNat 2 = 2),
    (by decide : Int.toNat 1 = 1)]

set_option maxHeartbeats 1000000 in
/-- Accumulating the single point 5 into the bin [4.5, 5.5] yields count 1. -/
lemma c4_acc :
    histogramdd_linear_accum ⟨.double, [1, 1], [.fin 5]⟩ none false
        ⟨.double, [1], [.fin 0]⟩
        [⟨.double, [2], [.fin (9 / 2), .fin (11 / 2)]⟩] true
      = ⟨.double, [1], [.fin 1]⟩ := by
  norm_num [histogramdd_linear_accum, histogramdd_accum, accumPoint,
    pointIdx, pointStep, binIndex, weightAt, coordAt, Tensor.numel,
    Tensor.dim, Tensor.sizeLast, FP.fle, FP.feq, FP.flt, FP.fadd,
    FP.isfinite, List.range_succ]

/-- The full degenerate-range pipeline: samples [[5]], bin_counts [1],
no range. -/
lemma c4_pipeline :
    histogramdd_out_cpu_ct ⟨.double, [1, 1], [.fin 5]⟩ [1] none none false
        (empty0 .double) [empty0 .double]
      = ⟨none, ⟨.double, [1], [.fin 1]⟩,
          [⟨.double, [2], [.fin (9 / 2), .fin (11 / 2)]⟩]⟩ := by
  unfold histogramdd_out_cpu_ct
  rw [c4_bins]
  have hc : histogramdd_check_inputs ⟨.double, [1, 1], [.fin 5]⟩
      [⟨.double, [2], [.fin (9 / 2), .fin (11 / 2)]⟩] none = .ok () := rfl
  have hp : histogramdd_prepare_out_tl ⟨.double, [1, 1], [.fin 5]⟩
      [⟨.double, [2], [.fin (9 / 2), .fin (11 / 2)]⟩]
      (empty0 .double) [empty0 .double]
      = (none, ⟨.double, [1], [.fin 0]⟩, [⟨.double, [2], [.fin 0, .fin 0]⟩]) := rfl
  simp only [hc, hp]
  have hcopy : (([⟨.double, [2], [.fin 0, .fin 0]⟩] : List Tensor).zip
        [(⟨.double, [2], [.fin (9 / 2), .fin (11 / 2)]⟩ : Tensor)]).map
        (fun p => tensor_copy p.1 p.2)
      = [⟨.double, [2], [.fin (9 / 2), .fin (11 / 2)]⟩] := rfl
  rw [hcopy, c4_acc]

/-- C3: the outer-range resolver slices a supplied range into N pairs
(failing with an invalid-argument error when its length is not 2N), derives
the pairs from the column-wise minimum/maximum for a non-empty sample set,
defaults every pair to (0, 1) for an empty sample set, and then validates
every pair to be finite with low <= high, failing with an invalid-argument
error otherwise.  In particular an empty sample with bin_counts = [1] and no
range yields edges [0, 1] and hist [0] through the full pipeline. -/
theorem C3_outer_range_resolution :
    (∀ (input : Tensor) (r : List FP), r.length ≠ 2 * input.sizeLast →
        select_outer_bin_edges input (some r)
          = .error (.invalidArgument "range should have 2N elements")) ∧
    (∀ (input : Tensor) (r : List FP), r.length = 2 * input.sizeLast →
        souterRaw input (some r)
          = .ok ((List.range input.sizeLast).map (fun d => r.getD (2 * d) FP.nan),
                 (List.range input.sizeLast).map (fun d => r.getD (2 * d + 1) FP.nan))) ∧
    (∀ (input : Tensor), 0 < input.numel →
        souterRaw input none
          = .ok (aminmax_dim0 input (input.shape.getD 0 0) input.sizeLast)) ∧
    (∀ (input : Tensor), ¬ 0 < input.numel →
        souterRaw input none
          = .ok (List.replicate input.sizeLast (FP.fin 0),
                 List.replicate input.sizeLast (FP.fin 1))) ∧
    (∀ (input : Tensor) (range : Option (List FP)) (ls rs : List FP),
        souterRaw input range = .ok (ls, rs) →
        ((∀ p ∈ ls.zip rs, validPair p) →
          select_outer_bin_edges input range = .ok ((ls.zip rs).map expandPair)) ∧
        ((∃ p ∈ ls.zip rs, ¬ validPair p) →
          ∃ m, select_outer_bin_edges input range
            = .error (.invalidArgument m))) ∧
    (histogramdd_out_cpu_ct ⟨.double, [0, 1], []⟩ [1] none none false
        (empty0 .double) [empty0 .double]
      = ⟨none, ⟨.double, [1], [.fin 0]⟩, [⟨.double, [2], [.fin 0, .fin 1]⟩]⟩) := by
  refine ⟨?_, ?_, ?_, ?_, ?_, c3_pipeline⟩
  · intro input r h
    unfold select_outer_bin_edges souterRaw
    simp only [h, ne_eq, not_false_eq_true, if_true]
  · intro input r h
    unfold souterRaw
    simp only [h, ne_eq, not_true_eq_false, if_false]
  · intro input h
    unfold souterRaw
    simp only [h, if_true]
  · intro input h
    unfold souterRaw
    simp only [h, if_false]
  · intro input range ls rs h
    constructor
    · intro hall
      unfold select_outer_bin_edges
      rw [h]
      exact souterValidate_ok_of (ls.zip rs) hall
    · intro hbad
      obtain ⟨m, hm⟩ := souterValidate_err_of (ls.zip rs) hbad
      refine ⟨m, ?_⟩
      unfold select_outer_bin_edges
      rw [h]
      exact hm

/-- C3 witness: the range-length check fires on a malformed range, and the
slicing equation holds at a concrete well-formed range. -/
theorem C3_outer_range_resolution_witness :
    select_outer_bin_edges ⟨.double, [1, 1], [.fin 0]⟩ (some [.fin 0])
      = .error (.invalidArgument "range should have 2N elements") ∧
    souterRaw ⟨.double, [1, 1], [.fin 0]⟩ (some [.fin 0, .fin 1])
      = .ok ([.fin 0], [.fin 1]) := by
  constructor
  · exact C3_outer_range_resolution.1 ⟨.double, [1, 1], [.fin 0]⟩ [.fin 0] (by decide)
  · have h := C3_outer_range_resolution.2.1 ⟨.double, [1, 1], [.fin 0]⟩
      [.fin 0, .fin 1] (by decide)
    rw [h]
    rfl

/-- C4: in the count+range pipeline, a resolved outer pair with equal
endpoints is expanded by exactly 0.5 on each side before edge
materialization, and no other pair is altered; the validation pass maps every
pair through exactly this expansion.  Concretely, samples [[5]] with
bin_counts [1] and no range yield edges [4.5, 5.5] and hist [1]. -/
theorem C4_degenerate_range_expansion :
    (∀ p : FP × FP, FP.feq p.1 p.2 = true →
        expandPair p = (p.1.addQ (-(1 / 2)), p.2.addQ (1 / 2))) ∧
    (∀ p : FP × FP, FP.feq p.1 p.2 = false → expandPair p = p) ∧
    (∀ (l : List (FP × FP)) (ps : List (FP × FP)),
        souterValidate l = .ok ps → ps = l.map expandPair) ∧
    (histogramdd_out_cpu_ct ⟨.double, [1, 1], [.fin 5]⟩ [1] none none false
        (empty0 .double) [empty0 .double]
      = ⟨none, ⟨.double, [1], [.fin 1]⟩,
          [⟨.double, [2], [.fin (9 / 2), .fin (11 / 2)]⟩]⟩) := by
  refine ⟨?_, ?_, ?_, c4_pipeline⟩
  · intro p h
    simp [expandPair, h]
  · intro p h
    simp [expandPair, h]
  · intro l ps h
    exact (souterValidate_ok_inv l ps h).1

/-- C4 witness: the expansion equations at the concrete degenerate pair
(5, 5) and the untouched pair (0, 1). -/
theorem C4_degenerate_range_expansion_witness :
    expandPair (FP.fin 5, FP.fin 5) = (FP.fin (9 / 2), FP.fin (11 / 2)) ∧
    expandPair (FP.fin 0, FP.fin 1) = (FP.fin 0, FP.fin 1) := by
  constructor
  · have h := C4_degenerate_range_expansion.1 (FP.fin 5, FP.fin 5) (by decide)
    rw [h]
    norm_num [FP.addQ]
  · exact C4_degenerate_range_expansion.2.1 (FP.fin 0, FP.fin 1) (by decide)

/-- C5: the legacy histc outer-edge policy resolves bounds in order: when the
caller-supplied min equals max both are recomputed from the data's global
min/max; when the pair is (still) equal it is expanded by 1.0 on each side;
the result is rejected with an error when either bound is non-finite or when
min >= max (the strict less-than check fails), and otherwise returned
unchanged. -/
theorem C5_histc_edge_policy :
    (∀ (input : Tensor) (l r : FP), FP.feq l r = false →
        histc_select_outer_bin_edges input l r = histcValidate (l, r)) ∧
    (∀ (input : Tensor) (l r : FP) (g : FP × FP), FP.feq l r = true →
        aminmax_global input = .ok g →
        histc_select_outer_bin_edges input l r = histcValidate g) ∧
    (∀ p : FP × FP, FP.feq p.1 p.2 = true →
        histcValidate p = histcCheck (p.1.addQ (-1), p.2.addQ 1)) ∧
    (∀ p : FP × FP, FP.feq p.1 p.2 = false → histcValidate p = histcCheck p) ∧
    (∀ p : FP × FP, ¬ ((p.1.isfinite && p.2.isfinite) = true) →
        histcCheck p = .error (.invalidArgument "histc range is not finite")) ∧
    (∀ p : FP × FP, (p.1.isfinite && p.2.isfinite) = true →
        FP.flt p.1 p.2 = false →
        histcCheck p = .error (.invalidArgument "max must be larger than min")) ∧
    (∀ p : FP × FP, (p.1.isfinite && p.2.isfinite) = true →
        FP.flt p.1 p.2 = true → histcCheck p = .ok p) := by
  refine ⟨?_, ?_, ?_, ?_, ?_, ?_, ?_⟩
  · intro input l r h
    unfold histc_select_outer_bin_edges
    simp [h]
  · intro input l r g h hg
    unfold histc_select_outer_bin_edges
    simp [h, hg]
  · intro p h
    unfold histcValidate
    rw [if_pos h]
  · intro p h
    unfold histcValidate
    rw [if_neg (by simp [h])]
  · intro p h
    unfold histcCheck
    rw [if_pos h]
  · intro p h1 h2
    unfold histcCheck
    rw [if_neg (by simp [h1]), if_pos (by simp [h2])]
  · intro p h1 h2
    unfold histcCheck
    rw [if_neg (by simp [h1]), if_neg (by simp [h2])]

/-- C5 witness: with caller min = max = 0 and data [1, 2, 3], the bounds are
recomputed from the data as (1, 3), pass the checks, and are returned
unchanged. -/
theorem C5_histc_edge_policy_witness :
    histc_select_outer_bin_edges ⟨.double, [3], [.fin 1, .fin 2, .fin 3]⟩
        (FP.fin 0) (FP.fin 0) = .ok (FP.fin 1, FP.fin 3) := by
  have h1 := C5_histc_edge_policy.2.1 ⟨.double, [3], [.fin 1, .fin 2, .fin 3]⟩
    (FP.fin 0) (FP.fin 0) (FP.fin 1, FP.fin 3) (by decide) rfl
  have h2 := C5_histc_edge_policy.2.2.2.1 (FP.fin 1, FP.fin 3) (by decide)
  have h3 := C5_histc_edge_policy.2.2.2.2.2.2 (FP.fin 1, FP.fin 3)
    (by decide) (by decide)
  rw [h1, h2, h3]

lemma reshapeMN_sizeLast (t : Tensor) : (reshapeMN t).sizeLast = t.sizeLast := rfl

lemma select_outer_ok_len (input : Tensor) (range : Option (List FP))
    (pairs : List (FP × FP))
    (h : select_outer_bin_edges input range = .ok pairs) :
    pairs.length = input.sizeLast := by
  unfold select_outer_bin_edges at h
  rcases hsr : souterRaw input range with e | ⟨ls, rs⟩
  · rw [hsr] at h
    exact absurd h (by simp)
  · rw [hsr] at h
    obtain ⟨hps, -⟩ := souterValidate_ok_inv (ls.zip rs) pairs h
    obtain ⟨hl, hr⟩ := souterRaw_ok_len input range ls rs hsr
    rw [hps]
    simp [hl, hr]

/-- Shape of the freshly materialized bin edge tensors in the count+range
pipeline: one tensor of k+1 edges per requested bin count k. -/
lemma bin_edges_cpu_ok_shapes (self : Tensor) (bin_ct : List ℤ)
    (range : Option (List FP)) (gbins : List Tensor)
    (hlen : bin_ct.length = self.sizeLast)
    (h : histogramdd_bin_edges_cpu self bin_ct range = .ok gbins) :
    gbins.map Tensor.shape = bin_ct.map (fun k => [(k + 1).toNat]) := by
  unfold histogramdd_bin_edges_cpu at h
  rcases ha : allocate_bin_edges_tensors self with e | fresh
  · rw [ha] at h
    exact absurd h (by simp)
  · rw [ha] at h
    dsimp only at h
    have hfresh : fresh = List.replicate self.sizeLast (empty0 self.dtype) := by
      unfold allocate_bin_edges_tensors at ha
      by_cases hd : self.dim < 2
      · rw [if_pos hd] at ha
        exact absurd ha (by simp)
      · rw [if_neg hd] at ha
        simp only [Except.ok.injEq] at ha
        exact ha.symm
    unfold histogramdd_bin_edges_out_cpu at h
    rcases hso : select_outer_bin_edges (reshapeMN self) range with e | pairs
    · rw [hso] at h
      exact absurd h (by simp)
    · rw [hso] at h
      dsimp only at h
      rcases hll : linspaceLoop (pairs.zip (bin_ct.zip fresh)) with ⟨oe, ts⟩
      rw [hll] at h
      cases oe with
      | some e => exact absurd h (by simp)
      | none =>
        simp only [Prod.mk.injEq] at h
        have hts : ts = gbins := by
          simpa using h
        have hlp : pairs.length = self.sizeLast := by
          have := select_outer_ok_len (reshapeMN self) range pairs hso
          rwa [reshapeMN_sizeLast] at this
        obtain ⟨hsh, -⟩ := linspaceLoop_ok_inv (pairs.zip (bin_ct.zip fresh)) ts hll
        rw [hts] at hsh
        rw [hsh]
        have hfl : fresh.length = self.sizeLast := by
          rw [hfresh]
          simp
        exact zip3_map_mid (fun k => [(k + 1).toNat]) pairs bin_ct fresh
          (by omega) (by omega)

/-- Structured success form of the TensorList histogramdd entry point: the
final state is exactly the accumulator applied to the copied-in edges, the
output edges hold the caller's edge values with the resized shapes, and the
histogram has the derived (numel - 1) shape. -/
lemma out_tl_ok_struct (self : Tensor) (bins : List Tensor)
    (weight : Option Tensor) (density : Bool) (hist : Tensor)
    (bin_edges : List Tensor)
    (h : (histogramdd_out_cpu_tl self bins weight density hist bin_edges).err = none) :
    ∃ hist1 edges2,
      histogramdd_out_cpu_tl self bins weight density hist bin_edges
        = ⟨none, histogramdd_accum self weight density hist1 edges2, edges2⟩ ∧
      edges2.map Tensor.data = bins.map Tensor.data ∧
      edges2.map Tensor.shape = bins.map (fun b => [b.numel]) ∧
      hist1.shape = bins.map (fun b => b.numel - 1) ∧
      ∀ b ∈ bins, 2 ≤ b.numel := by
  obtain ⟨hc, hist1, edges1, hp, heq⟩ :=
    out_tl_ok_inv self bins weight density hist bin_edges h
  have hp2 : histogramdd_prepare_out_ct self
      (bins.map (fun t => (t.numel : ℤ) - 1)) hist bin_edges
      = (none, hist1, edges1) := hp
  obtain ⟨hkl, hbl, hdt, hh1, he1, hall⟩ :=
    prepare_ct_ok self (bins.map (fun t => (t.numel : ℤ) - 1)) hist bin_edges
      hist1 edges1 hp2
  have hkslen : (bins.map (fun t => (t.numel : ℤ) - 1)).length = bins.length := by
    simp
  have he1len : edges1.length = self.sizeLast := by
    rw [he1]
    simp only [List.length_map, List.length_zip]
    omega
  have hpos : ∀ k ∈ bins.map (fun t => (t.numel : ℤ) - 1), 0 < k :=
    forall_fst_of_zip (bins.map (fun t => (t.numel : ℤ) - 1)) bin_edges
      (by omega) (fun p hp' => (hall p hp').2)
  have hnum : ∀ b ∈ bins, 2 ≤ b.numel := by
    intro b hb
    have h2 : (0 : ℤ) < (b.numel : ℤ) - 1 :=
      hpos _ (List.mem_map_of_mem _ hb)
    omega
  refine ⟨hist1, (edges1.zip bins).map (fun p => tensor_copy p.1 p.2), heq,
    ?_, ?_, ?_, hnum⟩
  · exact map_data_copy_zip edges1 bins (by omega)
  · rw [map_shape_copy_zip edges1 bins (by omega), he1,
      map_shape_resize_zip _ bin_edges (by omega), List.map_map]
    refine List.map_congr_left ?_
    intro b hb
    have h2 := hnum b hb
    simp only [Function.comp_apply]
    congr 1
    omega
  · rw [hh1]
    show (bins.map (fun t => (t.numel : ℤ) - 1)).map Int.toNat = _
    rw [List.map_map]
    refine List.map_congr_left ?_
    intro b hb
    have h2 := hnum b hb
    simp only [Function.comp_apply]
    omega

/-- Structured success form of the IntArrayRef histogramdd entry point (for
bin_ct of the matching length N): the final state is the linear accumulator
applied to the copied-in generated edges, the output edges hold the generated
edge values with shape k+1 per dimension, and the histogram has shape exactly
bin_ct, all counts being positive. -/
lemma out_ct_ok_struct (self : Tensor) (bin_ct : List ℤ)
    (range : Option (List FP)) (weight : Option Tensor) (density : Bool)
    (hist : Tensor) (bin_edges : List Tensor)
    (hlen : bin_ct.length = self.sizeLast)
    (h : (histogramdd_out_cpu_ct self bin_ct range weight density hist bin_edges).err = none) :
    ∃ gbins hist1 edges2,
      histogramdd_bin_edges_cpu self bin_ct range = .ok gbins ∧
      histogramdd_out_cpu_ct self bin_ct range weight density hist bin_edges
        = ⟨none, histogramdd_linear_accum self weight density hist1 edges2 true, edges2⟩ ∧
      edges2.map Tensor.data = gbins.map Tensor.data ∧
      edges2.map Tensor.shape = bin_ct.map (fun k => [k.toNat + 1]) ∧
      hist1.shape = bin_ct.map Int.toNat ∧
      ∀ k ∈ bin_ct, 0 < k := by
  obtain ⟨gbins, hbe, hc, hist1, edges1, hp, heq⟩ :=
    out_ct_ok_inv self bin_ct range weight density hist bin_edges h
  have hshapes := bin_edges_cpu_ok_shapes self bin_ct range gbins hlen hbe
  have hglen : gbins.length = bin_ct.length := by
    have := congrArg List.length hshapes
    simpa using this
  have hnum_eq : gbins.map Tensor.numel = bin_ct.map (fun k => (k + 1).toNat) := by
    have h2 := congrArg (List.map List.prod) hshapes
    rw [List.map_map, List.map_map] at h2
    calc gbins.map Tensor.numel
        = gbins.map (List.prod ∘ Tensor.shape) := rfl
      _ = bin_ct.map (List.prod ∘ fun k => [(k + 1).toNat]) := h2
      _ = bin_ct.map (fun k => (k + 1).toNat) :=
          List.map_congr_left (fun k _ => by simp)
  have hks_eq : gbins.map (fun t => (t.numel : ℤ) - 1)
      = bin_ct.map (fun k => ((k + 1).toNat : ℤ) - 1) := by
    have h2 := congrArg (List.map (fun n : ℕ => (n : ℤ) - 1)) hnum_eq
    rw [List.map_map, List.map_map] at h2
    exact h2
  have hp2 : histogramdd_prepare_out_ct self
      (gbins.map (fun t => (t.numel : ℤ) - 1)) hist bin_edges
      = (none, hist1, edges1) := hp
  obtain ⟨hkl, hbl, hdt, hh1, he1, hall⟩ :=
    prepare_ct_ok self (gbins.map (fun t => (t.numel : ℤ) - 1)) hist bin_edges
      hist1 edges1 hp2
  have hkslen : (gbins.map (fun t => (t.numel : ℤ) - 1)).length = gbins.length := by
    simp
  have he1len : edges1.length = self.sizeLast := by
    rw [he1]
    simp only [List.length_map, List.length_zip]
    omega
  have hpos : ∀ k ∈ gbins.map (fun t => (t.numel : ℤ) - 1), 0 < k :=
    forall_fst_of_zip (gbins.map (fun t => (t.numel : ℤ) - 1)) bin_edges
      (by omega) (fun p hp' => (hall p hp').2)
  have hctpos : ∀ k ∈ bin_ct, 0 < k := by
    intro k hk
    have h2 : (0 : ℤ) < ((k + 1).toNat : ℤ) - 1 := by
      apply hpos
      rw [hks_eq]
      exact List.mem_map_of_mem _ hk
    omega
  refine ⟨gbins, hist1, (edges1.zip gbins).map (fun p => tensor_copy p.1 p.2),
    hbe, heq, ?_, ?_, ?_, hctpos⟩
  · exact map_data_copy_zip edges1 gbins (by omega)
  · rw [map_shape_copy_zip edges1 gbins (by omega), he1,
      map_shape_resize_zip _ bin_edges (by omega), hks_eq, List.map_map]
    refine List.map_congr_left ?_
    intro k hk
    have h2 := hctpos k hk
    simp only [Function.comp_apply]
    congr 1
    omega
  · rw [hh1]
    show (gbins.map (fun t => (t.numel : ℤ) - 1)).map Int.toNat = _
    rw [hks_eq, List.map_map]
    refine List.map_congr_left ?_
    intro k hk
    have h2 := hctpos k hk
    simp only [Function.comp_apply]
    omega

lemma getD_map_of_lt {α β : Type} (f : α → β) (l : List α) (d : ℕ)
    (a : α) (b : β) (hd : d < l.length) :
    (l.map f).getD d b = f (l.getD d a) := by
  induction l generalizing d with
  | nil => simp at hd
  | cons x xs ih =>
    cases d with
    | zero => simp
    | succ d' =>
      simp only [List.length_cons, Nat.succ_lt_succ_iff] at hd
      simp only [List.map_cons, List.getD_cons_succ]
      exact ih d' hd

/-- Raising the preparation stage's error through the TensorList entry point. -/
lemma out_tl_err_of_prepare (self : Tensor) (bins : List Tensor)
    (weight : Option Tensor) (density : Bool) (hist : Tensor)
    (bin_edges : List Tensor) (e : Err)
    (hc : histogramdd_check_inputs self bins weight = .ok ())
    (hp : (histogramdd_prepare_out_tl self bins hist bin_edges).1 = some e) :
    (histogramdd_out_cpu_tl self bins weight density hist bin_edges).err = some e := by
  unfold histogramdd_out_cpu_tl
  rw [hc]
  rcases hp2 : histogramdd_prepare_out_tl self bins hist bin_edges with ⟨oe, h1, es1⟩
  rw [hp2] at hp
  cases oe with
  | some e' =>
    simp only at hp
    rw [hp]
  | none => exact absurd hp (by simp)

/-- C2: for both histogramdd entry points, a successful call returns a
histogram of shape exactly (k_0, ..., k_{N-1}) and per-dimension edge buffers
of length k_d + 1 (counts given directly, or derived as edge-tensor numel
minus 1 in explicit-edges mode); the preparation step fails with an
invalid-argument error if any requested count is non-positive or if the hist
or edge output buffer's element type differs from the sample's. -/
theorem C2_output_shapes :
    (∀ (input : Tensor) (ks : List ℤ) (hist : Tensor) (bes : List Tensor)
        (h' : Tensor) (es' : List Tensor),
        histogramdd_prepare_out_ct input ks hist bes = (none, h', es') →
          h'.shape = ks.map Int.toNat ∧ (∀ k ∈ ks, 0 < k) ∧
          es'.map Tensor.shape = ks.map (fun k => [k.toNat + 1])) ∧
    (∀ (input : Tensor) (ks : List ℤ) (hist : Tensor) (bes : List Tensor),
        ks.length = input.sizeLast → bes.length = input.sizeLast →
        (hist.dtype ≠ input.dtype ∨
          ∃ p ∈ ks.zip bes, p.2.dtype ≠ input.dtype ∨ ¬ 0 < p.1) →
        ∃ m, (histogramdd_prepare_out_ct input ks hist bes).1
          = some (.invalidArgument m)) ∧
    (∀ (self : Tensor) (bins : List Tensor) (weight : Option Tensor)
        (density : Bool) (hist : Tensor) (bin_edges : List Tensor),
        (histogramdd_out_cpu_tl self bins weight density hist bin_edges).err = none →
          (histogramdd_out_cpu_tl self bins weight density hist bin_edges).hist.shape
            = bins.map (fun b => b.numel - 1) ∧
          (histogramdd_out_cpu_tl self bins weight density hist bin_edges).bin_edges.map
              Tensor.shape
            = bins.map (fun b => [b.numel])) ∧
    (∀ (self : Tensor) (bin_ct : List ℤ) (range : Option (List FP))
        (weight : Option Tensor) (density : Bool) (hist : Tensor)
        (bin_edges : List Tensor),
        bin_ct.length = self.sizeLast →
        (histogramdd_out_cpu_ct self bin_ct range weight density hist bin_edges).err = none →
          (∀ k ∈ bin_ct, 0 < k) ∧
          (histogramdd_out_cpu_ct self bin_ct range weight density hist bin_edges).hist.shape
            = bin_ct.map Int.toNat ∧
          (histogramdd_out_cpu_ct self bin_ct range weight density hist bin_edges).bin_edges.map
              Tensor.shape
            = bin_ct.map (fun k => [k.toNat + 1])) := by
  refine ⟨?_, ?_, ?_, ?_⟩
  · intro input ks hist bes h' es' h
    obtain ⟨hkl, hbl, -, hh1, he1, hall⟩ := prepare_ct_ok input ks hist bes h' es' h
    refine ⟨?_, ?_, ?_⟩
    · rw [hh1]
      rfl
    · exact forall_fst_of_zip ks bes (by omega) (fun p hp => (hall p hp).2)
    · rw [he1]
      exact map_shape_resize_zip ks bes (by omega)
  · intro input ks hist bes h1 h2 h3
    exact prepare_ct_fail input ks hist bes h1 h2 h3
  · intro self bins weight density hist bin_edges h
    obtain ⟨hist1, edges2, heq, -, hsh, hh, -⟩ :=
      out_tl_ok_struct self bins weight density hist bin_edges h
    rw [heq]
    exact ⟨hh, hsh⟩
  · intro self bin_ct range weight density hist bin_edges hlen h
    obtain ⟨gbins, hist1, edges2, -, heq, -, hsh, hh, hpos⟩ :=
      out_ct_ok_struct self bin_ct range weight density hist bin_edges hlen h
    rw [heq]
    exact ⟨hpos, hh, hsh⟩

/-- C2 witness: a concrete successful explicit-edges call whose histogram has
shape [2] (numel 3 minus 1) and whose edge buffer has length 3. -/
theorem C2_output_shapes_witness :
    (histogramdd_out_cpu_tl ⟨.double, [1, 1], [.fin 0]⟩
        [⟨.double, [3], [.fin 0, .fin 1, .fin 2]⟩] none false
        (empty0 .double) [empty0 .double]).hist.shape = [2] ∧
    (histogramdd_out_cpu_tl ⟨.double, [1, 1], [.fin 0]⟩
        [⟨.double, [3], [.fin 0, .fin 1, .fin 2]⟩] none false
        (empty0 .double) [empty0 .double]).bin_edges.map Tensor.shape = [[3]] := by
  have h := (C2_output_shapes.2.2.1 ⟨.double, [1, 1], [.fin 0]⟩
    [⟨.double, [3], [.fin 0, .fin 1, .fin 2]⟩] none false
    (empty0 .double) [empty0 .double]) (by decide)
  exact ⟨h.1.trans (by decide), h.2.trans (by decide)⟩

/-- C7: on every successful call of either histogramdd entry point, the edge
tensors handed to the accumulation kernel are exactly the tensors returned in
the caller-visible bin_edges output buffers, and those buffers hold precisely
the values of the binning edge sequences (the caller's tensors in
explicit-edges mode, the freshly materialized tensors in count+range mode),
which are copied into them before accumulation. -/
theorem C7_binning_edges_equal_output_edges :
    (∀ (self : Tensor) (bins : List Tensor) (weight : Option Tensor)
        (density : Bool) (hist : Tensor) (bin_edges : List Tensor),
      (histogramdd_out_cpu_tl self bins weight density hist bin_edges).err = none →
        ∃ hist1,
          histogramdd_out_cpu_tl self bins weight density hist bin_edges
            = ⟨none,
                histogramdd_accum self weight density hist1
                  (histogramdd_out_cpu_tl self bins weight density hist bin_edges).bin_edges,
                (histogramdd_out_cpu_tl self bins weight density hist bin_edges).bin_edges⟩ ∧
          (histogramdd_out_cpu_tl self bins weight density hist bin_edges).bin_edges.map
              Tensor.data = bins.map Tensor.data) ∧
    (∀ (self : Tensor) (bin_ct : List ℤ) (range : Option (List FP))
        (weight : Option Tensor) (density : Bool) (hist : Tensor)
        (bin_edges : List Tensor),
      bin_ct.length = self.sizeLast →
      (histogramdd_out_cpu_ct self bin_ct range weight density hist bin_edges).err = none →
        ∃ gbins hist1,
          histogramdd_bin_edges_cpu self bin_ct range = .ok gbins ∧
          histogramdd_out_cpu_ct self bin_ct range weight density hist bin_edges
            = ⟨none,
                histogramdd_linear_accum self weight density hist1
                  (histogramdd_out_cpu_ct self bin_ct range weight density hist bin_edges).bin_edges
                  true,
                (histogramdd_out_cpu_ct self bin_ct range weight density hist bin_edges).bin_edges⟩ ∧
          (histogramdd_out_cpu_ct self bin_ct range weight density hist bin_edges).bin_edges.map
              Tensor.data = gbins.map Tensor.data) := by
  constructor
  · intro self bins weight density hist bin_edges h
    obtain ⟨hist1, edges2, heq, hdata, -, -, -⟩ :=
      out_tl_ok_struct self bins weight density hist bin_edges h
    have hbe : (histogramdd_out_cpu_tl self bins weight density hist bin_edges).bin_edges
        = edges2 := by
      rw [heq]
    refine ⟨hist1, ?_, ?_⟩
    · rw [hbe, heq]
    · rw [hbe]
      exact hdata
  · intro self bin_ct range weight density hist bin_edges hlen h
    obtain ⟨gbins, hist1, edges2, hbe0, heq, hdata, -, -, -⟩ :=
      out_ct_ok_struct self bin_ct range weight density hist bin_edges hlen h
    have hbe : (histogramdd_out_cpu_ct self bin_ct range weight density hist bin_edges).bin_edges
        = edges2 := by
      rw [heq]
    refine ⟨gbins, hist1, hbe0, ?_, ?_⟩
    · rw [hbe, heq]
    · rw [hbe]
      exact hdata

/-- C7 witness: a concrete successful explicit-edges call whose returned
bin_edges hold exactly the caller's edge values. -/
theorem C7_binning_edges_equal_output_edges_witness :
    (histogramdd_out_cpu_tl ⟨.double, [1, 1], [.fin 0]⟩
        [⟨.double, [2], [.fin 0, .fin 1]⟩] none false
        (empty0 .double) [empty0 .double]).bin_edges.map Tensor.data
      = [[FP.fin 0, FP.fin 1]] := by
  obtain ⟨hist1, -, hdata⟩ := C7_binning_edges_equal_output_edges.1
    ⟨.double, [1, 1], [.fin 0]⟩ [⟨.double, [2], [.fin 0, .fin 1]⟩] none false
    (empty0 .double) [empty0 .double] (by decide)
  exact hdata.trans (by decide)

/-- C8: the 1-D entry points are pure facades over the N-dimensional
pipeline.  The edge-tensor overload of histogram equals histogramdd applied
to the input reshaped to shape (numel, 1), with the edge tensor wrapped in a
one-element list and the weight flattened to length numel; and the legacy
histc entry point is exactly the composition of the same pipeline stages
(prepare, histc outer-edge resolution, linspace materialization, input
validation, linear accumulation) applied to the input reshaped to
(numel, 1) - not a separate algorithm. -/
theorem C8_one_dim_facades :
    (∀ (self bins : Tensor) (weight : Option Tensor) (density : Bool)
        (hist bin_edges : Tensor),
      histogram_out_cpu_edges self bins weight density hist bin_edges
        = histogramdd_out_cpu_tl (reshapeFlat self) [bins]
            (flattenWeight weight) density hist [bin_edges]) ∧
    (∀ self : Tensor, reshapeFlat self = ⟨self.dtype, [self.numel, 1], self.data⟩) ∧
    (∀ w : Tensor, flattenWeight (some w) = some ⟨w.dtype, [w.numel], w.data⟩) ∧
    (∀ (self : Tensor) (bin_ct : ℤ) (mn mx : FP) (hist : Tensor),
      histogram_histc_cpu_out self bin_ct mn mx hist =
        match histogramdd_prepare_out_ct (reshapeFlat self) [bin_ct] hist
            [empty0 self.dtype] with
        | (some e, hist1, _) => (some e, hist1)
        | (none, hist1, edges1) =>
          match histc_select_outer_bin_edges self mn mx with
          | .error e => (some e, hist1)
          | .ok p =>
            match linspace_cpu_out p.1 p.2 (bin_ct + 1)
                (edges1.getD 0 (empty0 self.dtype)) with
            | .error e => (some e, hist1)
            | .ok be2 =>
              match histogramdd_check_inputs (reshapeFlat self) [be2] none with
              | .error e => (some e, hist1)
              | .ok () =>
                (none, histogramdd_linear_accum (reshapeFlat self) none false
                  hist1 [be2] false)) :=
  ⟨fun _ _ _ _ _ _ => rfl, fun _ => rfl, fun _ => rfl, fun _ _ _ _ _ => rfl⟩

/-- C10: in explicit-edges mode a one-element edge tensor passes input
validation (which only requires at least 1 element) but the derived bin count
numel - 1 = 0 is rejected by output preparation, so the call fails with an
invalid-argument error; on a concrete instance the error is exactly the
"bins must be > 0" message; consequently every successful explicit-edges call
has at least 2 edges (at least 1 bin) in every dimension. -/
theorem C10_one_element_edges_rejected :
    (∀ (self : Tensor) (bins : List Tensor) (weight : Option Tensor)
        (density : Bool) (hist : Tensor) (bin_edges : List Tensor) (d : ℕ),
        d < bins.length →
        (bins.getD d (empty0 .double)).numel = 1 →
        histogramdd_check_inputs self bins weight = .ok () →
        bin_edges.length = self.sizeLast →
        ∃ m, (histogramdd_out_cpu_tl self bins weight density hist bin_edges).err
          = some (.invalidArgument m)) ∧
    (∀ (self : Tensor) (bins : List Tensor) (weight : Option Tensor)
        (density : Bool) (hist : Tensor) (bin_edges : List Tensor),
        (histogramdd_out_cpu_tl self bins weight density hist bin_edges).err = none →
        ∀ b ∈ bins, 2 ≤ b.numel) ∧
    ((histogramdd_out_cpu_tl ⟨.double, [1, 1], [.fin 0]⟩
        [⟨.double, [1], [.fin 0]⟩] none false (empty0 .double)
        [empty0 .double]).err = some (.invalidArgument binsPosMsg)) ∧
    (histogramdd_check_inputs ⟨.double, [1, 1], [.fin 0]⟩
        [⟨.double, [1], [.fin 0]⟩] none = .ok ()) := by
  refine ⟨?_, ?_, by decide, rfl⟩
  · intro self bins weight density hist bin_edges d hd hnum hc hlen
    have hbinsN : bins.length = self.sizeLast :=
      ((check_inputs_ok_iff self bins weight).mp hc).2.1
    have hkd : (bins.map (fun t => (t.numel : ℤ) - 1)).getD d 0
        = ((bins.getD d (empty0 .double)).numel : ℤ) - 1 :=
      getD_map_of_lt _ bins d (empty0 .double) 0 hd
    have hmem : ((bins.map (fun t => (t.numel : ℤ) - 1)).getD d 0,
        bin_edges.getD d (empty0 .double))
        ∈ (bins.map (fun t => (t.numel : ℤ) - 1)).zip bin_edges :=
      zip_getD_mem _ _ d 0 (empty0 .double) (by simp [hd]) (by simp [hbinsN, hlen])
    have hkval : ((bins.map (fun t => (t.numel : ℤ) - 1)).getD d 0) = 0 := by
      rw [hkd, hnum]
      decide
    obtain ⟨m, hm⟩ := prepare_ct_fail self
      (bins.map (fun t => (t.numel : ℤ) - 1)) hist bin_edges
      (by simp [hbinsN]) hlen
      (Or.inr ⟨_, hmem, Or.inr (by
        intro hcontra
        simp only at hcontra
        rw [hkval] at hcontra
        exact absurd hcontra (by decide))⟩)
    exact ⟨m, out_tl_err_of_prepare self bins weight density hist bin_edges
      (.invalidArgument m) hc hm⟩
  · intro self bins weight density hist bin_edges h
    obtain ⟨-, -, -, -, -, -, hnum⟩ :=
      out_tl_ok_struct self bins weight density hist bin_edges h
    exact hnum

/-- C10 witness: the concrete failing instance discharged through the general
statement: one dimension, one-element edge tensor, validation passes, call
fails with an invalid-argument error. -/
theorem C10_one_element_edges_rejected_witness :
    ∃ m, (histogramdd_out_cpu_tl ⟨.double, [1, 1], [.fin 0]⟩
        [⟨.double, [1], [.fin 0]⟩] none false (empty0 .double)
        [empty0 .double]).err = some (.invalidArgument m) :=
  C10_one_element_edges_rejected.1 ⟨.double, [1, 1], [.fin 0]⟩
    [⟨.double, [1], [.fin 0]⟩] none false (empty0 .double) [empty0 .double]
    0 (by decide) (by decide) rfl (by decide)

lemma find?_range_eq_none (K : ℕ) (p : ℕ → Bool)
    (h : ∀ i < K, p i = false) : (List.range K).find? p = none := by
  rw [List.find?_eq_none]
  intro x hx
  simp [h x (List.mem_range.mp hx)]

lemma find?_range_unique (K m : ℕ) (p : ℕ → Bool) (hm : m < K)
    (hpm : p m = true) (huniq : ∀ i < K, p i = true → i = m) :
    (List.range K).find? p = some m := by
  rcases hf : (List.range K).find? p with _ | j
  · exfalso
    have := List.find?_eq_none.mp hf m (List.mem_range.mpr hm)
    rw [hpm] at this
    exact this rfl
  · have h1 := List.find?_some hf
    have h2 := List.mem_range.mp (List.mem_of_find?_eq_some hf)
    rw [huniq j h2 h1]

/-- Under ascending finite edges, the bin-locating predicate at the last-edge
coordinate holds exactly at the final bin. -/
lemma binIndex_last_edge (qs : List ℚ) (hlen : 2 ≤ qs.length)
    (hmono : ∀ j, j < qs.length → ∀ i, i ≤ j → qs.getD i 0 ≤ qs.getD j 0) :
    binIndex (qs.map FP.fin) (FP.fin (qs.getD (qs.length - 1) 0))
      = some (qs.length - 2) := by
  unfold binIndex
  simp only [List.length_map]
  have hpred : ∀ i, i < qs.length - 1 →
      (FP.fle ((qs.map FP.fin).getD i FP.nan) (FP.fin (qs.getD (qs.length - 1) 0)) &&
        (FP.flt (FP.fin (qs.getD (qs.length - 1) 0)) ((qs.map FP.fin).getD (i + 1) FP.nan) ||
          (decide (i = qs.length - 1 - 1) &&
            FP.feq (FP.fin (qs.getD (qs.length - 1) 0))
              ((qs.map FP.fin).getD (qs.length - 1) FP.nan))))
      = decide (i = qs.length - 1 - 1) := by
    intro i hi
    rw [getD_map_fin qs i (by omega), getD_map_fin qs (i + 1) (by omega),
      getD_map_fin qs (qs.length - 1) (by omega),
      fle_fin_fin, flt_fin_fin, feq_fin_fin]
    have h1 : qs.getD i 0 ≤ qs.getD (qs.length - 1) 0 :=
      hmono (qs.length - 1) (by omega) i (by omega)
    have h2 : ¬ (qs.getD (qs.length - 1) 0 < qs.getD (i + 1) 0) :=
      not_lt.mpr (hmono (qs.length - 1) (by omega) (i + 1) (by omega))
    simp only [List.getD_eq_getElem?_getD] at h1 h2
    simp [h1, h2]
  refine find?_range_unique (qs.length - 1) (qs.length - 2) _ (by omega) ?_ ?_
  · rw [hpred (qs.length - 2) (by omega)]
    simp only [decide_eq_true_eq]
    omega
  · intro i hi hp
    rw [hpred i hi] at hp
    simp only [decide_eq_true_eq] at hp
    omega

/-- Under ascending finite edges, a coordinate strictly outside the outer
edges matches no bin. -/
lemma binIndex_out_of_range (qs : List ℚ) (x : ℚ) (hlen : 2 ≤ qs.length)
    (hmono : ∀ j, j < qs.length → ∀ i, i ≤ j → qs.getD i 0 ≤ qs.getD j 0)
    (hout : x < qs.getD 0 0 ∨ qs.getD (qs.length - 1) 0 < x) :
    binIndex (qs.map FP.fin) (FP.fin x) = none := by
  unfold binIndex
  simp only [List.length_map]
  apply find?_range_eq_none
  intro i hi
  rw [getD_map_fin qs i (by omega), getD_map_fin qs (i + 1) (by omega),
    getD_map_fin qs (qs.length - 1) (by omega),
    fle_fin_fin, flt_fin_fin, feq_fin_fin]
  rcases hout with hlow | hhigh
  · have h1 : ¬ (qs.getD i 0 ≤ x) := by
      have := hmono i (by omega) 0 (by omega)
      intro hc
      exact absurd (lt_of_lt_of_le hlow this) (not_lt.mpr hc)
    simp only [List.getD_eq_getElem?_getD] at h1
    simp [h1]
  · have h2 : ¬ (x < qs.getD (i + 1) 0) := by
      have := hmono (qs.length - 1) (by omega) (i + 1) (by omega)
      exact not_lt.mpr (le_of_lt (lt_of_le_of_lt this hhigh))
    have h3 : ¬ (x = qs.getD (qs.length - 1) 0) := by
      intro hc
      rw [hc] at hhigh
      exact absurd hhigh (lt_irrefl _)
    simp only [List.getD_eq_getElem?_getD] at h2 h3
    simp [h2, h3]

/-- Interval property of any located bin index (no sortedness needed). -/
lemma binIndex_some_inv (edges : List FP) (v : FP) (i : ℕ)
    (h : binIndex edges v = some i) :
    i < edges.length - 1 ∧
    FP.fle (edges.getD i FP.nan) v = true ∧
    (FP.flt v (edges.getD (i + 1) FP.nan) = true ∨
      (i = edges.length - 1 - 1 ∧
       FP.feq v (edges.getD (edges.length - 1) FP.nan) = true)) := by
  unfold binIndex at h
  have h1 := List.find?_some h
  have h2 := List.mem_range.mp (List.mem_of_find?_eq_some h)
  simp only [Bool.and_eq_true, Bool.or_eq_true, decide_eq_true_eq] at h1
  exact ⟨h2, h1.1, h1.2⟩

lemma pointStep_none (p : List FP × FP) : pointStep none p = none := by
  unfold pointStep
  cases binIndex p.1 p.2 <;> rfl

lemma pointStep_some_none (a : ℕ) (p : List FP × FP)
    (h : binIndex p.1 p.2 = none) : pointStep (some a) p = none := by
  unfold pointStep
  rw [h]

lemma pointStep_some_some (a i : ℕ) (p : List FP × FP)
    (h : binIndex p.1 p.2 = some i) :
    pointStep (some a) p = some (a * (p.1.length - 1) + i) := by
  unfold pointStep
  rw [h]

lemma foldl_pointStep_none (l : List (List FP × FP)) :
    l.foldl pointStep none = none := by
  induction l with
  | nil => rfl
  | cons p rest ih => rw [List.foldl_cons, pointStep_none, ih]

lemma foldl_pointStep_none_of_mem (l : List (List FP × FP))
    (h : ∃ p ∈ l, binIndex p.1 p.2 = none) :
    ∀ a, l.foldl pointStep (some a) = none := by
  induction l with
  | nil => simp at h
  | cons p0 rest ih =>
    intro a
    rcases h with ⟨p, hp, hnone⟩
    rcases List.mem_cons.mp hp with rfl | hp'
    · rw [List.foldl_cons, pointStep_some_none a p hnone, foldl_pointStep_none]
    · rw [List.foldl_cons]
      cases hb : binIndex p0.1 p0.2 with
      | none => rw [pointStep_some_none _ _ hb, foldl_pointStep_none]
      | some i =>
        rw [pointStep_some_some _ _ _ hb]
        exact ih ⟨p, hp', hnone⟩ _

lemma foldl_pointStep_last (l : List (List FP × FP))
    (hb : ∀ p ∈ l, binIndex p.1 p.2 = some (p.1.length - 2))
    (hK : ∀ p ∈ l, 2 ≤ p.1.length) :
    ∀ a, l.foldl pointStep (some a)
      = some (a * (l.map (fun p => p.1.length - 1)).prod
          + ((l.map (fun p => p.1.length - 1)).prod - 1)) := by
  induction l with
  | nil =>
    intro a
    simp
  | cons p0 rest ih =>
    intro a
    have hb0 := hb p0 (List.mem_cons_self _ _)
    have hK0 := hK p0 (List.mem_cons_self _ _)
    rw [List.foldl_cons, pointStep_some_some _ _ _ hb0,
      ih (fun p hp => hb p (List.mem_cons_of_mem _ hp))
        (fun p hp => hK p (List.mem_cons_of_mem _ hp))]
    simp only [List.map_cons, List.prod_cons]
    obtain ⟨k, hk⟩ : ∃ k, p0.1.length = k + 2 := ⟨p0.1.length - 2, by omega⟩
    have hP : 0 < (rest.map (fun p => p.1.length - 1)).prod := by
      apply List.prod_pos
      intro x hx
      obtain ⟨p, hp, hxe⟩ := List.mem_map.mp hx
      have := hK p (List.mem_cons_of_mem _ hp)
      omega
    obtain ⟨q, hq⟩ : ∃ q, (rest.map (fun p => p.1.length - 1)).prod = q + 1 :=
      ⟨(rest.map (fun p => p.1.length - 1)).prod - 1, by omega⟩
    rw [hk, hq]
    have h1 : k + 2 - 1 = k + 1 := by omega
    have h2 : k + 2 - 2 = k := by omega
    have h3 : q + 1 - 1 = q := by omega
    have h4 : (k + 1) * (q + 1) - 1 = k * q + k + q := by
      have : (k + 1) * (q + 1) = k * q + k + q + 1 := by ring
      omega
    rw [h1, h2, h3, h4]
    congr 1
    ring

lemma map_fst_zip {α β γ : Type} (f : α → γ) :
    ∀ (l1 : List α) (l2 : List β), l1.length = l2.length →
      (l1.zip l2).map (fun p => f p.1) = l1.map f := by
  intro l1
  induction l1 with
  | nil => intro l2 h; simp
  | cons x xs ih =>
    intro l2 h
    cases l2 with
    | nil => simp at h
    | cons y ys =>
      simp only [List.length_cons, Nat.succ.injEq] at h
      simp [List.zip_cons_cons, ih ys h]

/-- C9 (accumulation kernel, modelled from the spec): per dimension, the bin
index located for a coordinate satisfies edges[i] <= x < edges[i+1], with the
final bin closed on both ends so that a coordinate equal to the last edge is
placed in the last bin; for ascending finite edges, a coordinate strictly
outside the outer edges matches no bin; a point with any rejected coordinate
leaves the histogram cells unchanged (the whole point is dropped, never an
error), while an accepted point adds its weight into its row-major linearized
cell; and a point equal to the last edge in every dimension is linearized
into the last cell. -/
theorem C9_accumulation_semantics :
    (∀ qs : List ℚ, 2 ≤ qs.length →
      (∀ j, j < qs.length → ∀ i, i ≤ j → qs.getD i 0 ≤ qs.getD j 0) →
      binIndex (qs.map FP.fin) (FP.fin (qs.getD (qs.length - 1) 0))
        = some (qs.length - 2)) ∧
    (∀ (qs : List ℚ) (x : ℚ), 2 ≤ qs.length →
      (∀ j, j < qs.length → ∀ i, i ≤ j → qs.getD i 0 ≤ qs.getD j 0) →
      (x < qs.getD 0 0 ∨ qs.getD (qs.length - 1) 0 < x) →
      binIndex (qs.map FP.fin) (FP.fin x) = none) ∧
    (∀ (edges : List FP) (v : FP) (i : ℕ),
      binIndex edges v = some i →
        i < edges.length - 1 ∧
        FP.fle (edges.getD i FP.nan) v = true ∧
        (FP.flt v (edges.getD (i + 1) FP.nan) = true ∨
          (i = edges.length - 1 - 1 ∧
           FP.feq v (edges.getD (edges.length - 1) FP.nan) = true))) ∧
    (∀ (eds : List (List FP)) (coords : List FP) (w : FP) (cs : List FP),
      (∃ p ∈ eds.zip coords, binIndex p.1 p.2 = none) →
      accumPoint eds coords w cs = cs) ∧
    (∀ (eds : List (List FP)) (coords : List FP) (w : FP) (cs : List FP)
        (idx : ℕ),
      pointIdx eds coords = some idx →
      accumPoint eds coords w cs
        = cs.set idx (FP.fadd (cs.getD idx (FP.fin 0)) w)) ∧
    (∀ (eds : List (List FP)) (coords : List FP),
      eds.length = coords.length →
      (∀ p ∈ eds.zip coords, binIndex p.1 p.2 = some (p.1.length - 2)) →
      (∀ p ∈ eds.zip coords, 2 ≤ p.1.length) →
      pointIdx eds coords
        = some ((eds.map (fun e => e.length - 1)).prod - 1)) := by
  refine ⟨?_, ?_, ?_, ?_, ?_, ?_⟩
  · exact binIndex_last_edge
  · exact binIndex_out_of_range
  · exact binIndex_some_inv
  · intro eds coords w cs h
    have hnone : pointIdx eds coords = none :=
      foldl_pointStep_none_of_mem _ h 0
    unfold accumPoint
    rw [hnone]
  · intro eds coords w cs idx h
    unfold accumPoint
    rw [h]
  · intro eds coords hl hb hK
    unfold pointIdx
    rw [foldl_pointStep_last _ hb hK 0,
      map_fst_zip (fun e => e.length - 1) eds coords hl]
    simp

/-- C9 witness: with edges [0, 1, 2], the coordinate 2 (the last edge) lands
in the last bin, the coordinate 3 is dropped; a point outside [0, 1] leaves
the cells unchanged; the point equal to the last edge of every dimension
linearizes to the last cell. -/
theorem C9_accumulation_semantics_witness :
    binIndex (([0, 1, 2] : List ℚ).map FP.fin)
        (FP.fin (([0, 1, 2] : List ℚ).getD 2 0)) = some 1 ∧
    binIndex (([0, 1, 2] : List ℚ).map FP.fin) (FP.fin 3) = none ∧
    accumPoint [[FP.fin 0, FP.fin 1]] [FP.fin 5] (FP.fin 1) [FP.fin 0]
      = [FP.fin 0] ∧
    pointIdx [[FP.fin 0, FP.fin 1, FP.fin 2], [FP.fin 0, FP.fin 1, FP.fin 2]]
        [FP.fin 2, FP.fin 2] = some 3 := by
  refine ⟨?_, ?_, ?_, ?_⟩
  · exact C9_accumulation_semantics.1 [0, 1, 2] (by decide) (by decide)
  · exact C9_accumulation_semantics.2.1 [0, 1, 2] 3 (by decide) (by decide)
      (by decide)
  · exact C9_accumulation_semantics.2.2.2.1 [[FP.fin 0, FP.fin 1]] [FP.fin 5]
      (FP.fin 1) [FP.fin 0]
      ⟨([FP.fin 0, FP.fin 1], FP.fin 5), by decide, by decide⟩
  · exact C9_accumulation_semantics.2.2.2.2.2
      [[FP.fin 0, FP.fin 1, FP.fin 2], [FP.fin 0, FP.fin 1, FP.fin 2]]
      [FP.fin 2, FP.fin 2] (by decide) (by decide) (by decide)
